import Mathlib

/-!
Verification development for the metabolic-base discovery / indexing /
fuzzy-search pipeline (src/js/auto-discovery.js, src/js/content-indexer.js,
src/js/sync-manager.js).

The JavaScript sources are shallowly embedded: strings are `String` /
`List Char`, JavaScript objects (used as string-keyed maps) are association
lists `List (String × α)` that preserve property insertion order, `Set`s are
lists with explicit membership, numeric scores are `ℚ`, timestamps are `Nat`,
and all asynchronous fetch results are passed in as explicit data.
-/

namespace MB

/-! ## Small generic helpers for JavaScript objects (string-keyed maps)

A JavaScript object literal used as a map keeps property insertion order;
assigning to an existing key updates in place, assigning a fresh key appends,
`delete` removes the key.  Keys are unique by construction.
-/

/-- `obj[k]` read: value of the first entry with key `k`. -/
def getVal (m : List (String × α)) (k : String) : Option α :=
  (m.find? (fun e => e.1 == k)).map (·.2)

/-- `obj[k] = v`: update in place if the key exists (JavaScript object keys
are unique, so the first occurrence is the only one), else append. -/
def setVal : List (String × α) → String → α → List (String × α)
  | [], k, v => [(k, v)]
  | e :: rest, k, v => if e.1 == k then (k, v) :: rest else e :: setVal rest k v

/-- `delete obj[k]`. -/
def eraseKey (m : List (String × α)) (k : String) : List (String × α) :=
  m.filter (fun e => !(e.1 == k))

/-- Keys of the object, in insertion order (`Object.keys`). -/
def keysOf (m : List (String × α)) : List String :=
  m.map (·.1)

/-- Values of the object, in insertion order (`Object.values`). -/
def valsOf (m : List (String × α)) : List α :=
  m.map (·.2)

/-- Well-formedness of an embedded JavaScript object: keys are unique. -/
abbrev KeysNodup (m : List (String × α)) : Prop :=
  (m.map (·.1)).Nodup

/-- Membership in an inverted index: `m ∈ invertedIndex[k]` (specification
predicate used to state the index invariants). -/
def memInv (inv : List (String × List String)) (k m : String) : Prop :=
  ∃ lst, getVal inv k = some lst ∧ m ∈ lst

/-! ## Tokenizer (`ContentIndexer.extractKeywords`, content-indexer.js:380-394)

`text.toLowerCase().replace(/[^\wäöüß\s-]/g, ' ').split(/\s+/)` followed by
the length / stop-word / numeric filters, `.map(trim)`, and a final
non-emptiness filter.
-/

/-- Characters matched by the regex class `\s` on the inputs this system
processes. -/
def isSpaceChar (c : Char) : Bool :=
  c == ' ' || c == '\t' || c == '\n' || c == '\r'

/-- The uppercase/lowercase letter pairs `String.prototype.toLowerCase`
acts on within the alphabet kept by the tokenizer's character class
(`[\wäöüß-]`): the ASCII letters and the German umlauts. -/
def upperLowerPairs : List (Char × Char) :=
  [('A', 'a'), ('B', 'b'), ('C', 'c'), ('D', 'd'), ('E', 'e'), ('F', 'f'),
   ('G', 'g'), ('H', 'h'), ('I', 'i'), ('J', 'j'), ('K', 'k'), ('L', 'l'),
   ('M', 'm'), ('N', 'n'), ('O', 'o'), ('P', 'p'), ('Q', 'q'), ('R', 'r'),
   ('S', 's'), ('T', 't'), ('U', 'u'), ('V', 'v'), ('W', 'w'), ('X', 'x'),
   ('Y', 'y'), ('Z', 'z'), ('Ä', 'ä'), ('Ö', 'ö'), ('Ü', 'ü')]

/-- `toLowerCase` on one character, restricted to the alphabet above. -/
def jsToLower (c : Char) : Char :=
  ((upperLowerPairs.find? (fun p => p.1 == c)).map (·.2)).getD c

/-- A character is uppercase (in the alphabet this tokenizer processes). -/
def isUpperChar (c : Char) : Bool :=
  decide (c ∈ upperLowerPairs.map Prod.fst)

/-- The character class `[\wäöüß\s-]` kept (not replaced by a space) by
`replace(/[^\wäöüß\s-]/g, ' ')`; `\w` is ASCII `[A-Za-z0-9_]`. -/
def isKeptChar (c : Char) : Bool :=
  c.isAlphanum || c == '_' || c == 'ä' || c == 'ö' || c == 'ü' || c == 'ß' ||
    isSpaceChar c || c == '-'

/-- One step of `replace(/[^\wäöüß\s-]/g, ' ')`. -/
def replaceNonWordChar (c : Char) : Char :=
  if isKeptChar c then c else ' '

/-- `String.prototype.trim`. -/
def trimChars (l : List Char) : List Char :=
  ((l.dropWhile isSpaceChar).reverse.dropWhile isSpaceChar).reverse

/-- Worker for `split(/\s+/)`: `inSep` records whether the previous
character belonged to the current (maximal) whitespace run, `cur` holds the
current field in reverse. -/
def splitWsAux (inSep : Bool) (cur : List Char) : List Char → List (List Char)
  | [] => [cur.reverse]
  | c :: cs =>
    if isSpaceChar c then
      if inSep then splitWsAux true [] cs
      else cur.reverse :: splitWsAux true [] cs
    else
      splitWsAux false (c :: cur) cs

/-- `split(/\s+/)`: fields separated by maximal whitespace runs (a leading
run yields a leading empty field, a trailing run a trailing empty field, as
in JavaScript). -/
def splitWs (l : List Char) : List (List Char) :=
  splitWsAux false [] l

/-- The stop word set (content-indexer.js:15-25). -/
def stopWords : List String :=
  ["der", "die", "das", "und", "oder", "aber", "mit", "von", "zu", "in", "an", "auf",
   "für", "bei", "durch", "über", "unter", "nach", "vor", "bis", "seit", "während",
   "wegen", "trotz", "ohne", "gegen", "um", "zwischen", "neben", "hinter",
   "ich", "du", "er", "sie", "es", "wir", "ihr", "sich", "mich", "dich", "uns", "euch",
   "ist", "sind", "war", "waren", "hat", "haben", "wird", "werden", "kann", "könnte",
   "soll", "sollte", "muss", "müssen", "darf", "dürfen", "will", "wollen", "mag", "mögen",
   "ein", "eine", "einer", "einem", "einen", "kein", "keine", "keiner", "keinem", "keinen",
   "this", "that", "with", "from", "they", "been", "have", "their", "said", "each",
   "which", "would", "there", "what", "more", "very", "like", "well", "just"]

/-- The regex test `/^\d+$/` : the token is one or more digits. -/
def isAllDigits (w : List Char) : Bool :=
  !w.isEmpty && w.all (·.isDigit)

/-- `ContentIndexer.extractKeywords` (content-indexer.js:380-394). -/
def extractKeywords (text : String) : List String :=
  if text = "" then []
  else
    ((((splitWs ((text.toList.map jsToLower).map replaceNonWordChar)).filter
        (fun w => decide (w.length ≥ 3) &&
          !(decide (String.mk w ∈ stopWords)) && !(isAllDigits w))).map
      trimChars).filter (fun w => decide (w.length > 0))).map String.mk

/-- `ContentIndexer.countWords` (content-indexer.js:696-698). -/
def countWords (text : String) : Nat :=
  ((splitWs text.toList).filter (fun w => decide (w.length > 0))).length

example : extractKeywords "Der Patient hat eine Azidose." = ["patient", "azidose"] := by decide

/-! ## Jaro-Winkler similarity (`ContentIndexer.calculateJaroWinkler`,
content-indexer.js:621-664, and `getCommonPrefixLength`, 669-676)

The match phase of the source scans rows `i` of `s1` in ascending order and
marks, for each row, the first index `j` of `s2` with `s1[i] === s2[j]`,
`j` not yet marked, and `j` inside the window
`[max(0, i-W), min(i+W+1, s2.length))`.  We embed the marked state as the
list of still-unmarked `(index, char)` entries of `s2`; picking the first
eligible entry of that list is exactly the source's ascending-`j` scan. -/

/-- Eligibility of column `j` for row `i`: `i - W ≤ j ≤ i + W` (in `Nat`,
`i - W ≤ j` is written `i ≤ j + W`). -/
def jwInWindow (w i j : Nat) : Bool :=
  i ≤ j + w && j ≤ i + w

/-- The greedy match loop: `rows` are the `(index, char)` entries of `s1`
still to process, `cols` the unmatched `(index, char)` entries of `s2`.
Returns the matched `(i, j)` pairs in row order. -/
def jwGreedy (w : Nat) : List (Nat × Char) → List (Nat × Char) → List (Nat × Nat)
  | [], _ => []
  | a :: rows, cols =>
    match cols.find? (fun b => b.2 == a.2 && jwInWindow w a.1 b.1) with
    | some b => (a.1, b.1) :: jwGreedy w rows (cols.erase b)
    | none => jwGreedy w rows cols

/-- `l` with each element paired with its index, starting at `n`. -/
def enumPos (n : Nat) : List Char → List (Nat × Char)
  | [] => []
  | c :: cs => (n, c) :: enumPos (n + 1) cs

/-- The greedy match loop restricted to one character class, acting on the
bare position lists.  Since a row can only ever match a column holding the
same character, `jwGreedy` decomposes into one such loop per character (see
the symmetry development below). -/
def gcls (w : Nat) : List Nat → List Nat → List (Nat × Nat)
  | [], _ => []
  | a :: A, B =>
    match B.find? (fun b => jwInWindow w a b) with
    | some b => (a, b) :: gcls w A (B.erase b)
    | none => gcls w A B

/-- Positions of the entries holding character `c`. -/
def clsRows (c : Char) (l : List (Nat × Char)) : List Nat :=
  (l.filter (fun e => e.2 == c)).map Prod.fst

/-- All matched `(i, j)` index pairs of the source's match phase. -/
def jwMatchPairs (w : Nat) (s1 s2 : List Char) : List (Nat × Nat) :=
  jwGreedy w (enumPos 0 s1) (enumPos 0 s2)

/-- Count of positions where two equal-length char lists differ. -/
def mismatches : List Char → List Char → Nat
  | x :: xs, y :: ys => (if x = y then 0 else 1) + mismatches xs ys
  | _, _ => 0

/-- The transposition count of the source (the `k`-scan over the match
masks): the `k`-th matched row of `s1` (rows are produced in ascending
order) is compared with the `k`-th matched column of `s2` in ascending
column order. -/
def jwTranspositions (s1 s2 : List Char) (pairs : List (Nat × Nat)) : Nat :=
  let rows := pairs.map (·.1)
  let cols := (pairs.map (·.2)).insertionSort (· ≤ ·)
  mismatches (rows.map (fun i => s1.getD i ' ')) (cols.map (fun j => s2.getD j ' '))

/-- `ContentIndexer.getCommonPrefixLength` (content-indexer.js:669-676). -/
def getCommonPrefixLength : List Char → List Char → Nat
  | c :: cs, d :: ds => if c = d then 1 + getCommonPrefixLength cs ds else 0
  | _, _ => 0

/-- The arithmetic tail of `calculateJaroWinkler` (content-indexer.js:659-663)
over the match count `m`, raw transposition count `t`, and common prefix
length `p` (already clamped to 4): the Jaro score plus the Winkler boost. -/
def jaroWinklerOf (l1 l2 m t p : Nat) : ℚ :=
  let jaro := ((m : ℚ) / l1 + (m : ℚ) / l2 + ((m : ℚ) - (t : ℚ) / 2) / m) / 3
  jaro + (1 / 10 : ℚ) * p * (1 - jaro)

/-- `ContentIndexer.calculateJaroWinkler` (content-indexer.js:621-664).
`matchWindow = floor(max(len1,len2)/2) - 1` is negative iff
`max(len1,len2)/2 < 1`; real-number arithmetic of the source is embedded
in `ℚ`. -/
def calculateJaroWinkler (s1 s2 : List Char) : ℚ :=
  if s1 = s2 then 1
  else if s1.length = 0 || s2.length = 0 then 0
  else if max s1.length s2.length / 2 < 1 then 0
  else
    let w := max s1.length s2.length / 2 - 1
    let pairs := jwMatchPairs w s1 s2
    let m := pairs.length
    if m = 0 then 0
    else
      jaroWinklerOf s1.length s2.length m (jwTranspositions s1 s2 pairs)
        (min 4 (getCommonPrefixLength s1 s2))

example : calculateJaroWinkler "carnitin".toList "carnitin".toList = 1 := by decide
example : calculateJaroWinkler "".toList "x".toList = 0 := by decide
example : jwMatchPairs 2 "martha".toList "marhta".toList =
    [(0, 0), (1, 1), (2, 2), (3, 4), (4, 3), (5, 5)] := by decide
example : jwTranspositions "martha".toList "marhta".toList
    (jwMatchPairs 2 "martha".toList "marhta".toList) = 2 := by decide
/-! ## The search index (`ContentIndexer.searchIndex` and its operations)

Documents are fetched and parsed externally; an indexed module is embedded
as the resulting content record (`extractAndProcessContent`'s output,
content-indexer.js:213-257).  `buildIndex` and `importIndex` are therefore
parameterised by the extracted `(moduleId, content)` data. -/

/-- The per-module indexed content record (content-indexer.js:214-224). -/
structure IndexedContent where
  moduleId : String
  title : String
  category : String
  keywords : List String
  medicalTerms : List String
  fullText : String
  wordCount : Nat
  readingTime : Nat
deriving DecidableEq

/-- Per-category aggregate statistics (content-indexer.js:446-453). -/
structure CategoryStats where
  moduleCount : Nat
  totalWords : Nat
  topKeywords : List (String × Nat)
  medicalTerms : List String
deriving DecidableEq

/-- The `searchIndex` state object (content-indexer.js:4-12). -/
structure SearchIndex where
  index : List (String × IndexedContent)
  keywords : List String
  categories : List (String × CategoryStats)
  invertedIndex : List (String × List String)
  totalIndexedModules : Nat
deriving DecidableEq

/-- One step of `buildInvertedIndex`'s inner loop (content-indexer.js:425-433):
create the posting list on first sight of the keyword, then append the
module id if it is not already present. -/
def invIndexAdd (inv : List (String × List String)) (kw mid : String) :
    List (String × List String) :=
  match getVal inv kw with
  | none => inv ++ [(kw, [mid])]
  | some lst => if mid ∈ lst then inv else setVal inv kw (lst ++ [mid])

/-- `ContentIndexer.buildInvertedIndex` (content-indexer.js:421-435).  Note:
it folds the stored content records into the *current* `invertedIndex`
without clearing it first. -/
def buildInvertedIndex (st : SearchIndex) : SearchIndex :=
  let inv := (valsOf st.index).foldl
    (fun inv c => c.keywords.foldl (fun i kw => invIndexAdd i kw c.moduleId) inv)
    st.invertedIndex
  { st with invertedIndex := inv }

/-- Fresh per-category statistics (content-indexer.js:447-452). -/
def CategoryStats.fresh : CategoryStats :=
  { moduleCount := 0, totalWords := 0, topKeywords := [], medicalTerms := [] }

/-- One keyword-frequency bump in `buildCategoryStats`
(content-indexer.js:460-463). -/
def bumpKeyword (tk : List (String × Nat)) (kw : String) : List (String × Nat) :=
  match getVal tk kw with
  | none => tk ++ [(kw, 1)]
  | some n => setVal tk kw (n + 1)

/-- One content record folded into the category statistics
(content-indexer.js:443-469). -/
def statsAdd (cats : List (String × CategoryStats)) (c : IndexedContent) :
    List (String × CategoryStats) :=
  let stats := (getVal cats c.category).getD CategoryStats.fresh
  let stats := { stats with
    moduleCount := stats.moduleCount + 1,
    totalWords := stats.totalWords + c.wordCount,
    topKeywords := c.keywords.foldl bumpKeyword stats.topKeywords,
    medicalTerms := c.medicalTerms.foldl
      (fun mt t => if t ∈ mt then mt else mt ++ [t]) stats.medicalTerms }
  setVal cats c.category stats

/-- `ContentIndexer.buildCategoryStats` (content-indexer.js:440-470): also
folds into the *current* `categories` without clearing. -/
def buildCategoryStats (st : SearchIndex) : SearchIndex :=
  { st with categories := (valsOf st.index).foldl statsAdd st.categories }

/-- The index reset at the head of `buildIndex` (content-indexer.js:115-119)
and in `clearIndex` (784-789). -/
def resetIndexState (st : SearchIndex) : SearchIndex :=
  { st with index := [], keywords := [], categories := [], invertedIndex := [],
            totalIndexedModules := 0 }

/-- Storing one successfully indexed module (`indexModule`,
content-indexer.js:185-186, with the global keyword accumulation of
`extractAndProcessContent`, line 254). -/
def storeContent (st : SearchIndex) (entry : String × IndexedContent) : SearchIndex :=
  { st with
    index := setVal st.index entry.1 entry.2,
    keywords := entry.2.keywords.foldl
      (fun ks k => if k ∈ ks then ks else ks ++ [k]) st.keywords,
    totalIndexedModules := st.totalIndexedModules + 1 }

/-- `ContentIndexer.buildIndex` (content-indexer.js:111-144): reset, store
the extracted content of every reachable module, then rebuild the inverted
index and the category statistics. -/
def buildIndexFrom (st : SearchIndex) (extracted : List (String × IndexedContent)) :
    SearchIndex :=
  buildCategoryStats (buildInvertedIndex ((extracted.foldl storeContent (resetIndexState st))))

/-- `ContentIndexer.importIndex` (content-indexer.js:739-764): overwrite
stored records by id (imported side wins), union the keyword set, then run
`buildInvertedIndex` / `buildCategoryStats` *onto the existing* structures,
and recompute `totalIndexedModules` as the number of stored records. -/
def importIndex (st : SearchIndex) (importedIndex : List (String × IndexedContent))
    (importedKeywords : List String) : SearchIndex :=
  let ix := importedIndex.foldl
    (fun (ix : List (String × IndexedContent)) e => setVal ix e.1 e.2) st.index
  let ks := importedKeywords.foldl
    (fun ks k => if k ∈ ks then ks else ks ++ [k]) st.keywords
  let st := { st with index := ix, keywords := ks }
  let st := buildCategoryStats (buildInvertedIndex st)
  { st with totalIndexedModules := st.index.length }

/-! ## The query engine (`ContentIndexer.search`, content-indexer.js:475-538,
`addSearchResult`, 543-584, `createExcerpt`, 589-609) -/

/-- A ranked search result (content-indexer.js:550-559). -/
structure SearchResult where
  moduleId : String
  title : String
  category : String
  relevanceScore : ℚ
  matchedKeywords : List String
  excerpts : List String
  wordCount : Nat
  readingTime : Nat
deriving DecidableEq

/-- The options object of `search` with its defaults
(content-indexer.js:476-483); `fuzzyThreshold = 0.7` is the rational
`7/10`. -/
structure SearchOptions where
  maxResults : Nat := 50
  categoryFilter : Option String := none
  fuzzySearch : Bool := true
  includeExcerpts : Bool := true
  fuzzyThreshold : ℚ := mkRat 7 10
  maxFuzzyChecks : Nat := 1000

/-- `toLowerCase` on a whole string. -/
def strToLower (s : String) : String :=
  String.mk (s.toList.map jsToLower)

/-- `String.prototype.indexOf`: index of the first occurrence. -/
def idxOf : List Char → List Char → Option Nat
  | l, n => if n.isPrefixOf l then some 0
    else match l with
      | [] => none
      | _ :: cs => (idxOf cs n).map (· + 1)

/-- `String.prototype.includes` (substring containment). -/
def strIncludes (hay needle : String) : Bool :=
  (idxOf hay.toList needle.toList).isSome

/-- The `replace(regex, '<mark>$1</mark>')` of `createExcerpt`
(content-indexer.js:605-606): the regex is the escaped keyword with flags
`gi`, so every (leftmost, non-overlapping) case-insensitive occurrence of
the literal keyword is wrapped in `<mark>` tags. -/
def highlightAux (k : Char) (krest : List Char) : List Char → List Char
  | [] => []
  | c :: cs =>
    if ((k :: krest).map jsToLower).isPrefixOf ((c :: cs).map jsToLower) then
      "<mark>".toList ++ (c :: cs).take (krest.length + 1) ++ "</mark>".toList ++
        highlightAux k krest (cs.drop krest.length)
    else
      c :: highlightAux k krest cs
termination_by l => l.length
decreasing_by
  · exact Nat.lt_succ_of_le (le_trans (cs.length_drop krest.length ▸ Nat.sub_le _ _)
      (Nat.le_refl _))
  · exact Nat.lt_succ_self _

/-- Keyword highlighting of `createExcerpt`; an empty keyword never reaches
this point (query tokens and indexed keywords are nonempty). -/
def highlight (kw : List Char) (l : List Char) : List Char :=
  match kw with
  | [] => l
  | k :: krest => highlightAux k krest l

/-- `ContentIndexer.createExcerpt` (content-indexer.js:589-609). -/
def createExcerpt (text keyword : String) (contextLength : Nat := 100) : Option String :=
  let lowerText := (strToLower text).toList
  let lowerKeyword := (strToLower keyword).toList
  match idxOf lowerText lowerKeyword with
  | none => none
  | some index =>
    let start := index - contextLength
    let stop := min text.length (index + keyword.length + contextLength)
    let excerpt := (text.toList.drop start).take (stop - start)
    let excerpt := if start > 0 then "...".toList ++ excerpt else excerpt
    let excerpt := if stop < text.length then excerpt ++ "...".toList else excerpt
    some (String.mk (highlight keyword.toList excerpt))

/-- `ContentIndexer.addSearchResult` (content-indexer.js:543-584).  The
source pushes a fresh zero-score entry on first sight of the module and then
mutates the entry found by `results.find(...)`; module ids are unique within
`results` by construction, so updating-in-place is a map over the list. -/
def addSearchResult (results : List SearchResult) (moduleId keyword : String)
    (isExact : Bool) (includeExcerpts : Bool) (similarity : ℚ) (st : SearchIndex) :
    List SearchResult :=
  match getVal st.index moduleId with
  | none => results
  | some content =>
    let score : ℚ := (if isExact then 10 else 5) * similarity
    let score := if strIncludes (strToLower content.title) (strToLower keyword)
      then score * 2 else score
    let upd : SearchResult → SearchResult := fun r =>
      let r := { r with relevanceScore := r.relevanceScore + score }
      let mk := if keyword ∈ r.matchedKeywords then r.matchedKeywords
        else r.matchedKeywords ++ [keyword]
      let r := { r with matchedKeywords := mk }
      if includeExcerpts then
        match createExcerpt content.fullText keyword with
        | some e => if e ∈ r.excerpts then r else { r with excerpts := r.excerpts ++ [e] }
        | none => r
      else r
    let fresh : SearchResult :=
      { moduleId := moduleId, title := content.title, category := content.category,
        relevanceScore := 0, matchedKeywords := [], excerpts := [],
        wordCount := content.wordCount, readingTime := content.readingTime }
    if results.any (fun r => r.moduleId == moduleId) then
      results.map (fun r => if r.moduleId == moduleId then upd r else r)
    else
      results ++ [upd fresh]

/-- The exact-match phase of `search` (content-indexer.js:493-499). -/
def exactPhase (st : SearchIndex) (queryKeywords : List String)
    (includeExcerpts : Bool) : List SearchResult :=
  queryKeywords.foldl
    (fun results kw =>
      match getVal st.invertedIndex kw with
      | none => results
      | some mids => mids.foldl
          (fun rs mid => addSearchResult rs mid kw true includeExcerpts 1 st) results)
    []

/-- State threaded through the fuzzy phase.  `comps` and `matched` are
instrumentation: `comps` counts evaluations of the
`this.calculateJaroWinkler(queryKeyword, indexedKeyword)` call
(content-indexer.js:514) and `matched` counts indexed keywords credited as
fuzzy matches. -/
structure FuzzyState where
  results : List SearchResult
  fuzzyChecks : Nat
  comps : Nat
  matched : Nat

/-- The inner loop of the fuzzy phase (content-indexer.js:513-522): per
query keyword compute the similarity; on a hit credit every module of the
indexed keyword's posting list and `break` (without incrementing
`fuzzyChecks`); otherwise `fuzzyChecks++` and continue. -/
def fuzzyInner (st : SearchIndex) (includeExcerpts : Bool) (threshold : ℚ)
    (ik : String) (qks : List String) (s : FuzzyState) : FuzzyState :=
  match qks with
  | [] => s
  | qk :: rest =>
    let sim := calculateJaroWinkler qk.toList ik.toList
    if threshold < sim ∧ sim < 1 then
      { s with
        results := ((getVal st.invertedIndex ik).getD []).foldl
          (fun rs mid => addSearchResult rs mid ik false includeExcerpts sim st)
          s.results,
        comps := s.comps + 1,
        matched := s.matched + 1 }
    else
      fuzzyInner st includeExcerpts threshold ik rest
        { s with comps := s.comps + 1, fuzzyChecks := s.fuzzyChecks + 1 }

/-- The outer loop of the fuzzy phase (content-indexer.js:506-523): stop as
soon as `fuzzyChecks >= maxFuzzyChecks` holds at the head of an iteration;
skip indexed keywords whose length differs from the first query keyword's
length by more than 3. -/
def fuzzyOuter (st : SearchIndex) (includeExcerpts : Bool) (threshold : ℚ)
    (maxFuzzyChecks : Nat) (qks : List String) (q0len : Nat) :
    List String → FuzzyState → FuzzyState
  | [], s => s
  | ik :: rest, s =>
    if s.fuzzyChecks ≥ maxFuzzyChecks then s
    else if ((ik.length : Int) - (q0len : Int)).natAbs > 3 then
      fuzzyOuter st includeExcerpts threshold maxFuzzyChecks qks q0len rest s
    else
      fuzzyOuter st includeExcerpts threshold maxFuzzyChecks qks q0len rest
        (fuzzyInner st includeExcerpts threshold ik qks s)

/-- The exact phase followed by the (guarded) fuzzy phase of `search`
(content-indexer.js:489-524). -/
def searchPipeline (st : SearchIndex) (query : String) (opts : SearchOptions) :
    FuzzyState :=
  let queryKeywords := extractKeywords query
  let exactResults := exactPhase st queryKeywords opts.includeExcerpts
  let s0 : FuzzyState :=
    { results := exactResults, fuzzyChecks := 0, comps := 0, matched := 0 }
  if opts.fuzzySearch ∧ queryKeywords.length > 0 then
    fuzzyOuter st opts.includeExcerpts opts.fuzzyThreshold opts.maxFuzzyChecks
      queryKeywords ((queryKeywords.headD "").length) (keysOf st.invertedIndex) s0
  else s0

/-- The category filter of `search` (content-indexer.js:527-532). -/
def searchFiltered (st : SearchIndex) (query : String) (opts : SearchOptions) :
    List SearchResult :=
  match opts.categoryFilter with
  | some cf => if cf == "all" then (searchPipeline st query opts).results
      else (searchPipeline st query opts).results.filter (fun r => r.category == cf)
  | none => (searchPipeline st query opts).results

/-- `ContentIndexer.search` (content-indexer.js:475-538) together with the
instrumentation counters of its fuzzy phase. -/
def searchCore (st : SearchIndex) (query : String) (opts : SearchOptions) :
    List SearchResult × Nat × Nat :=
  if query.length < 2 then ([], 0, 0)
  else
    (((searchFiltered st query opts).insertionSort
        (fun a b => b.relevanceScore ≤ a.relevanceScore)).take opts.maxResults,
      (searchPipeline st query opts).comps, (searchPipeline st query opts).matched)

/-- The ranked result list of `search`. -/
def search (st : SearchIndex) (query : String) (opts : SearchOptions) :
    List SearchResult :=
  (searchCore st query opts).1

/-- Number of Jaro-Winkler similarity computations the fuzzy phase of this
`search` call performs. -/
def searchFuzzyComps (st : SearchIndex) (query : String) (opts : SearchOptions) : Nat :=
  (searchCore st query opts).2.1

/-- Number of indexed keywords the fuzzy phase of this `search` call credits
as fuzzy matches. -/
def searchFuzzyMatched (st : SearchIndex) (query : String) (opts : SearchOptions) : Nat :=
  (searchCore st query opts).2.2

/-! ## The module registry (`AutoDiscovery`, auto-discovery.js)

Document probing and HTML metadata extraction are external; the registry
operations are parameterised by the `ModuleData` records they would have
produced.  `lastModified` timestamps (ISO strings compared through
`new Date(...)`) are embedded as `Nat`. -/

/-- A module record (auto-discovery.js:305-315). -/
structure ModuleData where
  id : String
  title : String
  subtitle : String
  path : String
  category : String
  keywords : List String
  textContent : String
  lastModified : Nat
  fileSize : Nat
deriving DecidableEq

/-- The registry object (auto-discovery.js:20-26).  `lastUpdate` is `null`
until the first save. -/
structure Registry where
  version : String
  lastUpdate : Option Nat
  totalModules : Nat
  categories : List (String × List ModuleData)
  modules : List (String × ModuleData)
deriving DecidableEq

/-- Replace the first element satisfying `p` (the `findIndex` / assign-at-
index idiom of the sources). -/
def replaceFirstBy (p : α → Bool) (v : α) : List α → List α
  | [] => []
  | x :: xs => if p x then v :: xs else x :: replaceFirstBy p v xs

/-- Remove the first element satisfying `p` (`splice(index, 1)` after
`findIndex`). -/
def removeFirstBy (p : α → Bool) : List α → List α
  | [] => []
  | x :: xs => if p x then xs else x :: removeFirstBy p xs

/-- The registry mutation of a successful `extractModuleMetadata` call
(auto-discovery.js:317-319): store the record under its id and increment
`totalModules` — unconditionally, even when the id was already present. -/
def registerModuleMetadata (reg : Registry) (m : ModuleData) : Registry :=
  { reg with modules := setVal reg.modules m.id m,
             totalModules := reg.totalModules + 1 }

/-- `AutoDiscovery.scanCategory` (auto-discovery.js:82-103), given the
modules discovered in that category: each discovered file went through
`extractModuleMetadata`, and the category's list is set to the discovered
list. -/
def scanCategory (reg : Registry) (categoryKey : String) (found : List ModuleData) :
    Registry :=
  let reg := found.foldl registerModuleMetadata reg
  { reg with categories := setVal reg.categories categoryKey found }

/-- `AutoDiscovery.scanForModules` (auto-discovery.js:59-77): reset the
registry, scan every category, then save (which stamps `lastUpdate`). -/
def scanForModules (reg : Registry) (perCategory : List (String × List ModuleData))
    (now : Nat) : Registry :=
  let reg := { reg with categories := [], modules := [], totalModules := 0 }
  let reg := perCategory.foldl (fun r e => scanCategory r e.1 e.2) reg
  { reg with lastUpdate := some now }

/-- `AutoDiscovery.addModule` (auto-discovery.js:356-385), given the record
produced by `extractModuleMetadata` (with the optional title/subtitle
overrides already applied): the metadata call has already registered the
record and bumped the counter; the category list entry with the same `path`
is replaced in place, otherwise the record is appended. -/
def addModule (reg : Registry) (m : ModuleData) (now : Nat) : Registry :=
  let reg := registerModuleMetadata reg m
  let catList := (getVal reg.categories m.category).getD []
  let catList := if catList.any (fun x => x.path == m.path) then
      replaceFirstBy (fun x => x.path == m.path) m catList
    else catList ++ [m]
  let reg := { reg with categories := setVal reg.categories m.category catList }
  { reg with lastUpdate := some now }

/-- `AutoDiscovery.removeModule` (auto-discovery.js:390-409): a no-op when
the id is absent; otherwise remove from the category list and the module
map and decrement the counter. -/
def removeModule (reg : Registry) (moduleId : String) (now : Nat) : Registry :=
  match getVal reg.modules moduleId with
  | none => reg
  | some m =>
    let reg := match getVal reg.categories m.category with
      | none => reg
      | some lst =>
        let lst := removeFirstBy (fun (x : ModuleData) => x.id == moduleId) lst
        { reg with categories := setVal reg.categories m.category lst }
    { reg with modules := eraseKey reg.modules moduleId,
               totalModules := reg.totalModules - 1,
               lastUpdate := some now }

/-- The shared adoption step of `SyncManager.mergeRegistries`
(sync-manager.js:302-324) and `AutoDiscovery.importRegistry`
(auto-discovery.js:544-565): adopt the remote record when the id is absent
or the remote `lastModified` is strictly newer.  The source's `merged`
object aliases `local.modules`, so the lookup reads the accumulator. -/
def adoptModule (acc : Registry) (rm : ModuleData) : Registry :=
  let acc := { acc with modules := setVal acc.modules rm.id rm }
  let catList := (getVal acc.categories rm.category).getD []
  let catList := if catList.any (fun x => x.id == rm.id) then
      replaceFirstBy (fun x => x.id == rm.id) rm catList
    else catList ++ [rm]
  { acc with categories := setVal acc.categories rm.category catList }

/-- The adoption test wrapped around `adoptModule`. -/
def adoptIfNewer (acc : Registry) (rm : ModuleData) : Registry :=
  let adopt : Bool := match getVal acc.modules rm.id with
    | none => true
    | some lm => decide (lm.lastModified < rm.lastModified)
  if adopt then adoptModule acc rm else acc

/-- `SyncManager.mergeRegistries` (sync-manager.js:298-331): adopt newer
remote records, recompute `totalModules` as the number of module entries,
and stamp `lastUpdate` with the current time. -/
def mergeRegistries (localReg remote : Registry) (now : Nat) : Registry :=
  let merged := (valsOf remote.modules).foldl adoptIfNewer localReg
  { merged with totalModules := merged.modules.length, lastUpdate := some now }

/-- `AutoDiscovery.importRegistry` (auto-discovery.js:542-572): the same
merge onto the live registry, followed by `saveRegistry` (which stamps
`lastUpdate`). -/
def importRegistry (reg imported : Registry) (now : Nat) : Registry :=
  let merged := (valsOf imported.modules).foldl adoptIfNewer reg
  { merged with totalModules := merged.modules.length, lastUpdate := some now }

/-! ## User data synchronisation (`SyncManager`, sync-manager.js) -/

/-- A search history entry (query string with numeric timestamp). -/
structure SearchHistoryItem where
  query : String
  timestamp : Nat
deriving DecidableEq

/-- The user data snapshot of `collectUserData` (sync-manager.js:200-227);
settings / analytics / device fields not involved in the merge logic under
verification are omitted. -/
structure UserData where
  notes : List (String × String)
  progress : List (String × String)
  searchHistory : List SearchHistoryItem
  lastModified : Nat
deriving DecidableEq

/-- One step of the search-history deduplication `reduce`
(sync-manager.js:253-260): if the query is new or the incoming timestamp is
strictly greater, drop every entry with that query and push the incoming
item. -/
def histStep (acc : List SearchHistoryItem) (item : SearchHistoryItem) :
    List SearchHistoryItem :=
  match acc.find? (fun h => h.query == item.query) with
  | none => acc.filter (fun h => !(h.query == item.query)) ++ [item]
  | some ex =>
    if ex.timestamp < item.timestamp then
      acc.filter (fun h => !(h.query == item.query)) ++ [item]
    else acc

/-- `SyncManager.mergeUserData` (sync-manager.js:232-268).  JavaScript
falsiness of a missing or empty note/progress string is modelled explicitly;
the `merged` object aliases `local`, so lookups read the accumulator. -/
def mergeUserData (localData remote : UserData) (now : Nat) : UserData :=
  let notes := remote.notes.foldl
    (fun (ns : List (String × String)) e =>
      match getVal ns e.1 with
      | none => setVal ns e.1 e.2
      | some ln => if ln = "" ∨ ln.length < e.2.length then setVal ns e.1 e.2 else ns)
    localData.notes
  let progress := remote.progress.foldl
    (fun (ps : List (String × String)) e =>
      match getVal ps e.1 with
      | none => setVal ps e.1 e.2
      | some lp => if e.2 = "completed" ∨ lp = "" then setVal ps e.1 e.2 else ps)
    localData.progress
  let combinedHistory := localData.searchHistory ++ remote.searchHistory
  let uniqueHistory := combinedHistory.foldl histStep []
  { notes := notes, progress := progress,
    searchHistory :=
      ((uniqueHistory.insertionSort (fun a b => b.timestamp ≤ a.timestamp)).take 50),
    lastModified := now }

/-- Outcome of `importFullBackup` as visible to its environment. -/
inductive ImportOutcome where
  | success
  | parseError
  | invalidFormat
  | cancelled
deriving DecidableEq

/-- A parsed backup file (sync-manager.js:490-499 describes the produced
shape).  `version` and `type` may be absent; the search-index payload is the
`(index, keywords)` data that `importIndex` consumes. -/
structure BackupData where
  version : Option String
  btype : Option String
  registryData : Option Registry
  searchIndexData : Option (List (String × IndexedContent) × List String)
  userDataData : Option UserData
deriving DecidableEq

/-- The mutable state `importFullBackup` can touch. -/
structure SyncState where
  registry : Registry
  searchIndex : SearchIndex
  userData : UserData
deriving DecidableEq

/-- `SyncManager.importFullBackup` (sync-manager.js:527-576): a JSON parse
failure or a backup whose `type` is not `'full_backup'` or whose `version`
is falsy (absent or empty) is rejected before touching any state; the user
may also cancel at the `confirm` dialog.  Otherwise registry, search index
and user data are merged in. -/
def importFullBackup (st : SyncState) (parsed : Option BackupData)
    (userConfirms : Bool) (now : Nat) : SyncState × ImportOutcome :=
  match parsed with
  | none => (st, ImportOutcome.parseError)
  | some b =>
    if !(b.btype == some "full_backup") || b.version == none || b.version == some "" then
      (st, ImportOutcome.invalidFormat)
    else if !userConfirms then (st, ImportOutcome.cancelled)
    else
      let st := match b.registryData with
        | some r => { st with registry := importRegistry st.registry r now }
        | none => st
      let st := match b.searchIndexData with
        | some p => { st with searchIndex := importIndex st.searchIndex p.1 p.2 }
        | none => st
      let st := match b.userDataData with
        | some ud => { st with userData := mergeUserData st.userData ud now }
        | none => st
      (st, ImportOutcome.success)

/-! ## Concrete instances used in witnesses and counterexamples -/

/-- An empty search index state. -/
def emptySearchIndex : SearchIndex :=
  { index := [], keywords := [], categories := [], invertedIndex := [],
    totalIndexedModules := 0 }

/-- An empty registry. -/
def emptyRegistry : Registry :=
  { version := "2.0", lastUpdate := none, totalModules := 0, categories := [],
    modules := [] }

/-- Empty user data. -/
def emptyUserData : UserData :=
  { notes := [], progress := [], searchHistory := [], lastModified := 0 }

/-- A content record for module `m1` whose only keyword is `alpha`. -/
def contentAlpha : IndexedContent :=
  { moduleId := "m1", title := "T1", category := "cat", keywords := ["alpha"],
    medicalTerms := [], fullText := "", wordCount := 0, readingTime := 0 }

/-- A content record for module `m1` whose only keyword is `beta`. -/
def contentBeta : IndexedContent :=
  { moduleId := "m1", title := "T1", category := "cat", keywords := ["beta"],
    medicalTerms := [], fullText := "", wordCount := 0, readingTime := 0 }

/-- A module record with id `m1`. -/
def moduleM1 : ModuleData :=
  { id := "m1", title := "Modul 1", subtitle := "Lernmodul",
    path := "/metabolic-base/modules/04-aminosaeuren/teil1.html",
    category := "aminosaeuren", keywords := [], textContent := "",
    lastModified := 5, fileSize := 100 }

/-- A registry that satisfies the counter invariant and holds `moduleM1`. -/
def registryM1 : Registry :=
  { version := "2.0", lastUpdate := some 0, totalModules := 1,
    categories := [("aminosaeuren", [moduleM1])], modules := [("m1", moduleM1)] }

/-- `moduleM1` as seen by another device, with a newer `lastModified`. -/
def moduleM1v9 : ModuleData :=
  { moduleM1 with lastModified := 9 }

/-- A remote registry carrying the newer `moduleM1v9`. -/
def registryM1v9 : Registry :=
  { version := "2.0", lastUpdate := some 2, totalModules := 1,
    categories := [("aminosaeuren", [moduleM1v9])], modules := [("m1", moduleM1v9)] }

/-- A search index whose only indexed keyword is `qqq` (no character in
common with the query tokens below). -/
def fuzzyProbeIndex : SearchIndex :=
  { index := [("m1", contentAlpha)], keywords := ["qqq"], categories := [],
    invertedIndex := [("qqq", ["m1"])], totalIndexedModules := 1 }

/-- A freshly built index holding only `contentAlpha` for module `m1`. -/
def indexStateAlpha : SearchIndex :=
  buildIndexFrom emptySearchIndex [("m1", contentAlpha)]

/-- `indexStateAlpha` after import-merging a record for `m1` whose keyword
set no longer contains `alpha`. -/
def indexStateImported : SearchIndex :=
  importIndex indexStateAlpha [("m1", contentBeta)] []

/-- A backup file missing the `version` field. -/
def backupNoVersion : BackupData :=
  { version := none, btype := some "full_backup", registryData := none,
    searchIndexData := none, userDataData := none }

/-- An initial sync state. -/
def initialSyncState : SyncState :=
  { registry := emptyRegistry, searchIndex := emptySearchIndex,
    userData := emptyUserData }

/-- Two user data snapshots sharing the query "pku" with different
timestamps. -/
def userDataA : UserData :=
  { notes := [], progress := [],
    searchHistory := [{ query := "pku", timestamp := 3 }, { query := "gsd", timestamp := 9 }],
    lastModified := 0 }

/-- See `userDataA`. -/
def userDataB : UserData :=
  { notes := [], progress := [],
    searchHistory := [{ query := "pku", timestamp := 7 }],
    lastModified := 0 }

/-! # Theorems -/

/-! ## Tokenizer lemmas (claim C6) -/

/-- Fields produced by `splitWsAux` hold no whitespace character, and every
character comes from the accumulator or the remaining input. -/
theorem splitWsAux_chars :
    ∀ (l : List Char) (inSep : Bool) (cur : List Char),
    (∀ c ∈ cur, isSpaceChar c = false) →
    ∀ t ∈ splitWsAux inSep cur l, ∀ c ∈ t, isSpaceChar c = false ∧ (c ∈ cur ∨ c ∈ l)
  | [], inSep, cur => by
    intro hcur t ht c hc
    simp only [splitWsAux, List.mem_singleton] at ht
    subst ht
    have hmem : c ∈ cur := List.mem_reverse.mp hc
    exact ⟨hcur c hmem, Or.inl hmem⟩
  | x :: xs, inSep, cur => by
    intro hcur t ht c hc
    by_cases hx : isSpaceChar x = true
    · rw [splitWsAux, if_pos hx] at ht
      have hrec : ∀ t ∈ splitWsAux true [] xs, ∀ c ∈ t,
          isSpaceChar c = false ∧ (c ∈ ([] : List Char) ∨ c ∈ xs) :=
        splitWsAux_chars xs true [] (by intro c hc; cases hc)
      cases inSep with
      | true =>
        obtain ⟨hs, hor⟩ := hrec t ht c hc
        refine ⟨hs, Or.inr ?_⟩
        cases hor with
        | inl h => cases h
        | inr h => exact List.mem_cons_of_mem x h
      | false =>
        rcases List.mem_cons.mp ht with rfl | ht'
        · have hmem : c ∈ cur := List.mem_reverse.mp hc
          exact ⟨hcur c hmem, Or.inl hmem⟩
        · obtain ⟨hs, hor⟩ := hrec t ht' c hc
          refine ⟨hs, Or.inr ?_⟩
          cases hor with
          | inl h => cases h
          | inr h => exact List.mem_cons_of_mem x h
    · rw [splitWsAux, if_neg hx] at ht
      have hcur' : ∀ c ∈ x :: cur, isSpaceChar c = false := by
        intro c hc
        rcases List.mem_cons.mp hc with rfl | hc'
        · exact Bool.eq_false_iff.mpr hx
        · exact hcur c hc'
      obtain ⟨hs, hor⟩ := splitWsAux_chars xs false (x :: cur) hcur' t ht c hc
      refine ⟨hs, ?_⟩
      rcases hor with hc' | hc'
      · rcases List.mem_cons.mp hc' with rfl | hc''
        · exact Or.inr (List.mem_cons_self _ _)
        · exact Or.inl hc''
      · exact Or.inr (List.mem_cons_of_mem x hc')

/-- `dropWhile` is the identity on a list none of whose elements satisfy the
predicate. -/
theorem dropWhile_eq_self_of_none (p : Char → Bool) (l : List Char)
    (h : ∀ c ∈ l, p c = false) : l.dropWhile p = l := by
  cases l with
  | nil => rfl
  | cons x xs => simp [List.dropWhile_cons, h x (List.mem_cons_self x xs)]

/-- `trim` is the identity on a token without whitespace characters. -/
theorem trimChars_eq_self (l : List Char) (h : ∀ c ∈ l, isSpaceChar c = false) :
    trimChars l = l := by
  unfold trimChars
  rw [dropWhile_eq_self_of_none _ l h,
    dropWhile_eq_self_of_none _ l.reverse (by intro c hc; exact h c (List.mem_reverse.mp hc)),
    List.reverse_reverse]

/-- `jsToLower` never returns an uppercase character. -/
theorem isUpperChar_jsToLower (c : Char) : isUpperChar (jsToLower c) = false := by
  unfold jsToLower
  cases hfind : upperLowerPairs.find? (fun p => p.1 == c) with
  | none =>
    simp only [Option.map_none', Option.getD_none]
    have hall := List.find?_eq_none.mp hfind
    simp only [isUpperChar, decide_eq_false_iff_not]
    intro hmem
    obtain ⟨p, hp, hpc⟩ := List.mem_map.mp hmem
    exact hall p hp (by simp [hpc])
  | some p =>
    simp only [Option.map_some', Option.getD_some]
    have hp : p ∈ upperLowerPairs := List.mem_of_find?_eq_some hfind
    have : ∀ q ∈ upperLowerPairs, isUpperChar q.2 = false := by decide
    exact this p hp

/-- Every character of the lowercased-and-filtered text is lowercase. -/
theorem isUpperChar_processed (c : Char) :
    isUpperChar (replaceNonWordChar (jsToLower c)) = false := by
  unfold replaceNonWordChar
  by_cases h : isKeptChar (jsToLower c) = true
  · rw [if_pos h]; exact isUpperChar_jsToLower c
  · rw [if_neg h]; decide

/-- C6: every token returned by `extractKeywords` is lowercase, at least 3
characters long, not purely numeric, and not a stop word; on
"Der Patient hat eine Azidose." the stop word "der" is excluded while
"patient" and "azidose" are returned. -/
theorem C6_extractKeywords_tokens :
    (∀ (text : String), ∀ w ∈ extractKeywords text,
      3 ≤ w.length ∧
      (∀ c ∈ w.data, isUpperChar c = false) ∧
      isAllDigits w.data = false ∧
      w ∉ stopWords) ∧
    "der" ∉ extractKeywords "Der Patient hat eine Azidose." ∧
    "patient" ∈ extractKeywords "Der Patient hat eine Azidose." ∧
    "azidose" ∈ extractKeywords "Der Patient hat eine Azidose." := by
  refine ⟨?_, by decide, by decide, by decide⟩
  intro text w hw
  by_cases htext : text = ""
  · rw [extractKeywords, if_pos htext] at hw
    cases hw
  rw [extractKeywords, if_neg htext] at hw
  obtain ⟨t3, ht3, rfl⟩ := List.mem_map.mp hw
  obtain ⟨ht3m, _⟩ := List.mem_filter.mp ht3
  obtain ⟨t1, ht1, rfl⟩ := List.mem_map.mp ht3m
  obtain ⟨ht1m, hP⟩ := List.mem_filter.mp ht1
  have hchars := splitWsAux_chars _ false [] (by intro c hc; cases hc) t1 ht1m
  have hnsp : ∀ c ∈ t1, isSpaceChar c = false := fun c hc => (hchars c hc).1
  rw [trimChars_eq_self t1 hnsp]
  simp only [Bool.and_eq_true, Bool.not_eq_true', decide_eq_true_eq,
    decide_eq_false_iff_not] at hP
  obtain ⟨⟨hlen, hstop⟩, hdig⟩ := hP
  refine ⟨hlen, ?_, hdig, hstop⟩
  intro c hc
  rcases (hchars c hc).2 with h | h
  · cases h
  · obtain ⟨d, _, rfl⟩ := List.mem_map.mp h
    obtain ⟨e, _, rfl⟩ := List.mem_map.mp (by assumption : d ∈ text.toList.map jsToLower)
    exact isUpperChar_processed e

/-- Witness for C6 at a concrete input. -/
theorem C6_extractKeywords_tokens_witness :
    "patient" ∈ extractKeywords "Der Patient hat eine Azidose." ∧
    (3 ≤ "patient".length ∧ (∀ c ∈ "patient".data, isUpperChar c = false) ∧
      isAllDigits "patient".data = false ∧ "patient" ∉ stopWords) :=
  ⟨by decide,
    C6_extractKeywords_tokens.1 "Der Patient hat eine Azidose." "patient" (by decide)⟩

/-! ## Backup import validation (claim C9) -/

/-- C9: a backup whose `type` is not `'full_backup'` or whose `version` is
falsy (absent or empty) is rejected by `importFullBackup` with a validation
failure and the state is returned unchanged. -/
theorem C9_invalid_backup_rejected_without_mutation :
    ∀ (st : SyncState) (b : BackupData) (userConfirms : Bool) (now : Nat),
      b.btype ≠ some "full_backup" ∨ b.version = none ∨ b.version = some "" →
      importFullBackup st (some b) userConfirms now = (st, ImportOutcome.invalidFormat) := by
  intro st b uc now h
  have hcond : (!(b.btype == some "full_backup") || b.version == none
      || b.version == some "") = true := by
    rcases h with h | h | h <;> simp [h]
  simp only [importFullBackup]
  rw [if_pos hcond]

/-- Witness for C9: importing a backup missing `version` leaves the state
untouched. -/
theorem C9_invalid_backup_rejected_without_mutation_witness :
    backupNoVersion.version = none ∧
    importFullBackup initialSyncState (some backupNoVersion) true 7 =
      (initialSyncState, ImportOutcome.invalidFormat) :=
  ⟨rfl, C9_invalid_backup_rejected_without_mutation initialSyncState backupNoVersion true 7
    (Or.inr (Or.inl rfl))⟩

/-! ## Association-list lemmas -/

/-- Setting a key makes it readable. -/
theorem getVal_setVal_self : ∀ (m : List (String × α)) (k : String) (v : α),
    getVal (setVal m k v) k = some v
  | [], k, v => by simp [setVal, getVal, List.find?]
  | e :: rest, k, v => by
    by_cases he : (e.1 == k) = true
    · simp [setVal, he, getVal, List.find?]
    · simp only [setVal, he, Bool.false_eq_true, if_false]
      have hrec := getVal_setVal_self rest k v
      simpa [getVal, List.find?, he] using hrec

/-- Setting a key leaves other keys unchanged. -/
theorem getVal_setVal_ne : ∀ (m : List (String × α)) (k : String) (v : α) (k' : String),
    k' ≠ k → getVal (setVal m k v) k' = getVal m k'
  | [], k, v, k' => by
    intro h
    have hne : (k == k') = false := beq_eq_false_iff_ne.mpr (Ne.symm h)
    simp [setVal, getVal, List.find?, hne]
  | e :: rest, k, v, k' => by
    intro h
    by_cases he : (e.1 == k) = true
    · have hne : (k == k') = false := beq_eq_false_iff_ne.mpr (Ne.symm h)
      have hk : e.1 = k := by simpa using he
      have he' : (e.1 == k') = false := by
        rw [hk]
        exact hne
      simp [setVal, he, getVal, List.find?, hne, he']
    · simp only [setVal, he, Bool.false_eq_true, if_false]
      have hrec := getVal_setVal_ne rest k v k' h
      by_cases he' : (e.1 == k') = true
      · simp [getVal, List.find?, he']
      · simpa [getVal, List.find?, he'] using hrec

/-- Keys after `setVal`. -/
theorem keys_setVal : ∀ (m : List (String × α)) (k : String) (v : α),
    (setVal m k v).map Prod.fst =
      if k ∈ m.map Prod.fst then m.map Prod.fst else m.map Prod.fst ++ [k]
  | [], k, v => by simp [setVal]
  | e :: rest, k, v => by
    by_cases he : (e.1 == k) = true
    · have hk : e.1 = k := by simpa using he
      simp [setVal, he, hk]
    · have hk : ¬ e.1 = k := by simpa using he
      have hrec := keys_setVal rest k v
      by_cases hmem : k ∈ rest.map Prod.fst
      · simp [setVal, he, hmem, hrec, Ne.symm hk]
      · simp [setVal, he, hmem, hrec, Ne.symm hk]

/-- Length after `setVal`. -/
theorem length_setVal : ∀ (m : List (String × α)) (k : String) (v : α),
    (setVal m k v).length =
      if k ∈ m.map Prod.fst then m.length else m.length + 1
  | [], k, v => by simp [setVal]
  | e :: rest, k, v => by
    by_cases he : (e.1 == k) = true
    · have hk : e.1 = k := by simpa using he
      simp [setVal, he, hk]
    · have hk : ¬ e.1 = k := by simpa using he
      have hrec := length_setVal rest k v
      by_cases hmem : k ∈ rest.map Prod.fst
      · simp [setVal, he, hmem, hrec, Ne.symm hk]
      · simp [setVal, he, hmem, hrec, Ne.symm hk]

/-- A present key with unique keys reads back the paired value. -/
theorem getVal_of_mem : ∀ (m : List (String × α)) (k : String) (v : α),
    KeysNodup m → (k, v) ∈ m → getVal m k = some v
  | [], k, v => by
    intro _ hm
    cases hm
  | e :: rest, k, v => by
    intro hnd hm
    rcases List.mem_cons.mp hm with rfl | hm'
    · simp [getVal, List.find?]
    · have hk : ¬ e.1 = k := by
        intro hek
        have hmem : k ∈ rest.map Prod.fst :=
          List.mem_map.mpr ⟨(k, v), hm', rfl⟩
        exact (List.nodup_cons.mp hnd).1 (by simpa [hek] using hmem)
      have hrec := getVal_of_mem rest k v (List.nodup_cons.mp hnd).2 hm'
      simpa [getVal, List.find?, show (e.1 == k) = false by simpa using hk] using hrec

/-- A successful read means the pair is stored. -/
theorem mem_of_getVal : ∀ (m : List (String × α)) (k : String) (v : α),
    getVal m k = some v → (k, v) ∈ m := by
  intro m k v h
  unfold getVal at h
  cases hf : m.find? (fun e => e.1 == k) with
  | none => rw [hf] at h; cases h
  | some e =>
    rw [hf] at h
    have he : e ∈ m := List.mem_of_find?_eq_some hf
    have hk : e.1 = k := by simpa using List.find?_some hf
    have hv : e.2 = v := by simpa using h
    have : e = (k, v) := Prod.ext hk hv
    exact this ▸ he

/-- An absent key reads `none`. -/
theorem getVal_eq_none (m : List (String × α)) (k : String)
    (h : k ∉ m.map Prod.fst) : getVal m k = none := by
  unfold getVal
  rw [List.find?_eq_none.mpr]
  · rfl
  · intro e he hek
    exact h (List.mem_map.mpr ⟨e, he, by simpa using hek⟩)

/-- `eraseKey` of an absent key is the identity. -/
theorem eraseKey_of_not_mem (m : List (String × α)) (k : String)
    (h : k ∉ m.map Prod.fst) : eraseKey m k = m := by
  apply List.filter_eq_self.mpr
  intro e he
  simp only [Bool.not_eq_true']
  have : e.1 ≠ k := fun hek => h (List.mem_map.mpr ⟨e, he, hek⟩)
  simpa using this

/-- Erasing a present key from a unique-key map shrinks it by one. -/
theorem length_eraseKey : ∀ (m : List (String × α)) (k : String) (v : α),
    KeysNodup m → getVal m k = some v → (eraseKey m k).length + 1 = m.length
  | [], k, v => by
    intro _ h
    simp [getVal, List.find?] at h
  | e :: rest, k, v => by
    intro hnd h
    by_cases he : (e.1 == k) = true
    · have hk : e.1 = k := by simpa using he
      have hrest : k ∉ rest.map Prod.fst := by
        rw [← hk]
        exact (List.nodup_cons.mp hnd).1
      have h1 : eraseKey (e :: rest) k = rest := by
        have h2 := eraseKey_of_not_mem rest k hrest
        simp only [eraseKey] at h2 ⊢
        rw [List.filter_cons, if_neg (by simp [he]), h2]
      rw [h1]
      simp
    · have h' : getVal rest k = some v := by
        simpa [getVal, List.find?, he] using h
      have hrec := length_eraseKey rest k v (List.nodup_cons.mp hnd).2 h'
      simp [eraseKey, List.filter_cons, he] at hrec ⊢
      omega

/-! ## Registry merge lemmas (claims C3 and C4) -/

/-- Searching the value list of a well-keyed module map by id is searching
the map by key. -/
theorem find?_vals : ∀ (l : List (String × ModuleData)),
    (∀ e ∈ l, e.2.id = e.1) → ∀ (id : String),
    (valsOf l).find? (fun m => m.id == id) =
      (l.find? (fun e => e.1 == id)).map Prod.snd
  | [] => by
    intro _ id
    rfl
  | e :: rest => by
    intro h id
    have he := h e (List.mem_cons_self e rest)
    by_cases hid : (e.1 == id) = true
    · have h2 : (e.2.id == id) = true := by rw [he]; exact hid
      simp [valsOf, List.find?, hid, h2]
    · have h2 : (e.2.id == id) = false := by rw [he]; simpa using hid
      have hrec := find?_vals rest (fun x hx => h x (List.mem_cons_of_mem e hx)) id
      simpa [valsOf, List.find?, hid, h2] using hrec

/-- The module map after one adoption step. -/
theorem adoptIfNewer_modules_lookup (acc : Registry) (rm : ModuleData) :
    (adoptIfNewer acc rm).modules =
      match getVal acc.modules rm.id with
      | none => setVal acc.modules rm.id rm
      | some lm => if lm.lastModified < rm.lastModified
          then setVal acc.modules rm.id rm else acc.modules := by
  unfold adoptIfNewer adoptModule
  cases hl : getVal acc.modules rm.id with
  | none => simp [hl]
  | some lm =>
    by_cases hts : lm.lastModified < rm.lastModified
    · simp [hl, hts]
    · simp [hl, hts]

/-- An adoption step for a different id leaves that id's entry unchanged. -/
theorem adoptIfNewer_modules_ne (acc : Registry) (rm : ModuleData) (id : String)
    (h : rm.id ≠ id) :
    getVal (adoptIfNewer acc rm).modules id = getVal acc.modules id := by
  have h1 := adoptIfNewer_modules_lookup acc rm
  cases hl : getVal acc.modules rm.id with
  | none =>
    simp only [h1, hl]
    exact getVal_setVal_ne _ _ _ _ (Ne.symm h)
  | some lm =>
    simp only [h1, hl]
    by_cases hts : lm.lastModified < rm.lastModified
    · simp only [if_pos hts]
      exact getVal_setVal_ne _ _ _ _ (Ne.symm h)
    · simp only [if_neg hts]

/-- An adoption step at the remote record's own id. -/
theorem adoptIfNewer_modules_self (acc : Registry) (rm : ModuleData) :
    getVal (adoptIfNewer acc rm).modules rm.id =
      match getVal acc.modules rm.id with
      | none => some rm
      | some lm => if lm.lastModified < rm.lastModified then some rm else some lm := by
  have h1 := adoptIfNewer_modules_lookup acc rm
  cases hl : getVal acc.modules rm.id with
  | none =>
    simp only [h1, hl]
    exact getVal_setVal_self _ _ _
  | some lm =>
    simp only [h1, hl]
    by_cases hts : lm.lastModified < rm.lastModified
    · simp only [if_pos hts]
      exact getVal_setVal_self _ _ _
    · simp only [if_neg hts, hl]

/-- Pointwise description of the merge fold over a duplicate-free remote
module list. -/
theorem adoptFold_lookup : ∀ (ms : List ModuleData) (acc : Registry) (id : String),
    (ms.map (fun m => m.id)).Nodup →
    getVal ((ms.foldl adoptIfNewer acc).modules) id =
      (match ms.find? (fun m => m.id == id), getVal acc.modules id with
        | none, r => r
        | some rm, none => some rm
        | some rm, some lm =>
          if lm.lastModified < rm.lastModified then some rm else some lm)
  | [], acc, id => by
    intro _
    rfl
  | m :: ms, acc, id => by
    intro hnd
    by_cases hid : m.id = id
    · have hfind : (m :: ms).find? (fun x => x.id == id) = some m := by
        simp [List.find?, hid]
      have hnone : ms.find? (fun x => x.id == id) = none := by
        apply List.find?_eq_none.mpr
        intro x hx
        have hxne : x.id ≠ m.id := by
          intro hcontra
          exact (List.nodup_cons.mp hnd).1
            (List.mem_map.mpr ⟨x, hx, hcontra⟩)
        simpa [hid] using fun hcontra => hxne (by rw [hcontra, hid])
      have hrec := adoptFold_lookup ms (adoptIfNewer acc m) id (List.nodup_cons.mp hnd).2
      rw [List.foldl_cons, hrec, hnone, hfind]
      have hself := adoptIfNewer_modules_self acc m
      rw [hid] at hself
      rw [hself]
      cases getVal acc.modules id <;> rfl
    · have hfind : (m :: ms).find? (fun x => x.id == id) = ms.find? (fun x => x.id == id) := by
        simp [List.find?, show (m.id == id) = false from beq_eq_false_iff_ne.mpr hid]
      have hrec := adoptFold_lookup ms (adoptIfNewer acc m) id (List.nodup_cons.mp hnd).2
      rw [List.foldl_cons, hrec, hfind, adoptIfNewer_modules_ne acc m id hid]

/-- C3: the merge adopts the remote record exactly when the id is locally
absent or the remote record is strictly newer; otherwise the local record is
kept. -/
theorem C3_merge_adopts_iff_newer_or_absent
    (localReg remote : Registry) (now : Nat) (id : String)
    (hnd : KeysNodup remote.modules)
    (hid : ∀ e ∈ remote.modules, e.2.id = e.1) :
    getVal (mergeRegistries localReg remote now).modules id =
      (match getVal remote.modules id, getVal localReg.modules id with
        | none, r => r
        | some rm, none => some rm
        | some rm, some lm =>
          if lm.lastModified < rm.lastModified then some rm else some lm) := by
  have hvnd : ((valsOf remote.modules).map (fun m => m.id)).Nodup := by
    have : (valsOf remote.modules).map (fun m => m.id) = remote.modules.map Prod.fst := by
      simp only [valsOf, List.map_map]
      exact List.map_congr_left (fun e he => hid e he)
    rw [this]
    exact hnd
  have hfold := adoptFold_lookup (valsOf remote.modules) localReg id hvnd
  have hmerge : (mergeRegistries localReg remote now).modules =
      ((valsOf remote.modules).foldl adoptIfNewer localReg).modules := rfl
  rw [hmerge, hfold, find?_vals remote.modules hid id]
  rfl

/-- Witness for C3: a strictly newer remote record is adopted. -/
theorem C3_merge_adopts_iff_newer_or_absent_witness :
    KeysNodup registryM1v9.modules ∧
    getVal (mergeRegistries registryM1 registryM1v9 3).modules "m1" = some moduleM1v9 := by
  refine ⟨by decide, ?_⟩
  have h := C3_merge_adopts_iff_newer_or_absent registryM1 registryM1v9 3 "m1"
    (by decide) (by decide)
  exact h.trans (by decide)

/-- A record already stored identically is never re-adopted. -/
theorem adoptIfNewer_of_present (acc : Registry) (rm : ModuleData)
    (h : getVal acc.modules rm.id = some rm) : adoptIfNewer acc rm = acc := by
  unfold adoptIfNewer
  simp [h]

/-- Folding a value list the accumulator already stores is the identity. -/
theorem adoptFold_of_present : ∀ (ms : List ModuleData) (acc : Registry),
    (∀ rm ∈ ms, getVal acc.modules rm.id = some rm) →
    ms.foldl adoptIfNewer acc = acc
  | [], acc => by
    intro _
    rfl
  | m :: ms, acc => by
    intro h
    rw [List.foldl_cons, adoptIfNewer_of_present acc m (h m (List.mem_cons_self m ms))]
    exact adoptFold_of_present ms acc (fun rm hrm => h rm (List.mem_cons_of_mem m hrm))

/-- C4 (amended): merging a well-formed registry with itself only restamps
`lastUpdate` (and recomputes `totalModules`, which the counter invariant
makes a no-op); a record stored identically on both sides is kept as the
local record. -/
theorem C4_merge_self_restamps_only :
    (∀ (R : Registry) (now : Nat), KeysNodup R.modules →
      (∀ e ∈ R.modules, e.2.id = e.1) → R.totalModules = R.modules.length →
      mergeRegistries R R now = { R with lastUpdate := some now }) ∧
    (∀ (localReg remote : Registry) (now : Nat) (id : String) (m : ModuleData),
      KeysNodup remote.modules → (∀ e ∈ remote.modules, e.2.id = e.1) →
      getVal remote.modules id = some m → getVal localReg.modules id = some m →
      getVal (mergeRegistries localReg remote now).modules id = some m) := by
  constructor
  · intro R now hnd hid hinv
    have hall : ∀ rm ∈ valsOf R.modules, getVal R.modules rm.id = some rm := by
      intro rm hrm
      obtain ⟨e, he, rfl⟩ := List.mem_map.mp hrm
      have : (e.2.id, e.2) ∈ R.modules := by
        rw [hid e he]
        exact (Prod.mk.eta (p := e)) ▸ he
      exact getVal_of_mem R.modules e.2.id e.2 hnd this
    have hfold := adoptFold_of_present (valsOf R.modules) R hall
    show { (valsOf R.modules).foldl adoptIfNewer R with
      totalModules := ((valsOf R.modules).foldl adoptIfNewer R).modules.length,
      lastUpdate := some now } = { R with lastUpdate := some now }
    rw [hfold, ← hinv]
  · intro localReg remote now id m hnd hid hr hl
    rw [C3_merge_adopts_iff_newer_or_absent localReg remote now id hnd hid, hr, hl]
    simp

/-- Counterexample to C4 as stated: merging a registry with itself changes
`lastUpdate` to the merge time, so `merge(R, R) = R` fails. -/
theorem C4_merge_self_not_identity :
    mergeRegistries registryM1 registryM1 1 ≠ registryM1 := by decide

/-- Witness for the amended C4 at a concrete registry. -/
theorem C4_merge_self_restamps_only_witness :
    mergeRegistries registryM1 registryM1 4 = { registryM1 with lastUpdate := some 4 } :=
  C4_merge_self_restamps_only.1 registryM1 4 (by decide) (by decide) (by decide)

/-! ## The module counter invariant (claim C2) -/

/-- A `none` read means the key is absent. -/
theorem getVal_none_not_mem (m : List (String × α)) (k : String)
    (h : getVal m k = none) : k ∉ m.map Prod.fst := by
  intro hmem
  obtain ⟨e, he, hek⟩ := List.mem_map.mp hmem
  unfold getVal at h
  rw [Option.map_eq_none'] at h
  exact (List.find?_eq_none.mp h e he) (by simpa using hek)

/-- Registering pairwise fresh metadata keeps the counter equal to the map
size and appends the new ids to the key list. -/
theorem registerFold_inv : ∀ (ms : List ModuleData) (acc : Registry),
    acc.totalModules = acc.modules.length →
    (acc.modules.map Prod.fst ++ ms.map (fun m => m.id)).Nodup →
    (ms.foldl registerModuleMetadata acc).totalModules
      = (ms.foldl registerModuleMetadata acc).modules.length ∧
    (ms.foldl registerModuleMetadata acc).modules.map Prod.fst
      = acc.modules.map Prod.fst ++ ms.map (fun m => m.id)
  | [], acc => by
    intro hinv hnd
    exact ⟨hinv, by simp⟩
  | m :: ms, acc => by
    intro hinv hnd
    rw [List.foldl_cons]
    have hfresh : m.id ∉ acc.modules.map Prod.fst := by
      intro hmem
      obtain ⟨_, _, hdisj⟩ := List.nodup_append.mp hnd
      exact hdisj hmem (by simp)
    have hkeys : (registerModuleMetadata acc m).modules.map Prod.fst
        = acc.modules.map Prod.fst ++ [m.id] := by
      show (setVal acc.modules m.id m).map Prod.fst = _
      rw [keys_setVal, if_neg hfresh]
    have hlen : (registerModuleMetadata acc m).modules.length
        = acc.modules.length + 1 := by
      show (setVal acc.modules m.id m).length = _
      rw [length_setVal, if_neg hfresh]
    have hinv' : (registerModuleMetadata acc m).totalModules
        = (registerModuleMetadata acc m).modules.length := by
      show acc.totalModules + 1 = _
      rw [hlen, hinv]
    have hnd' : ((registerModuleMetadata acc m).modules.map Prod.fst
        ++ ms.map (fun m => m.id)).Nodup := by
      rw [hkeys, List.append_assoc]
      simpa using hnd
    obtain ⟨h1, h2⟩ := registerFold_inv ms (registerModuleMetadata acc m) hinv' hnd'
    refine ⟨h1, ?_⟩
    rw [h2, hkeys, List.append_assoc]
    simp

/-- The per-category scan fold keeps the counter invariant when all
discovered ids are pairwise distinct and fresh. -/
theorem scanFold_inv : ∀ (cats : List (String × List ModuleData)) (acc : Registry),
    acc.totalModules = acc.modules.length →
    (acc.modules.map Prod.fst
      ++ ((cats.map Prod.snd).flatten.map (fun m => m.id))).Nodup →
    (cats.foldl (fun r e => scanCategory r e.1 e.2) acc).totalModules
      = (cats.foldl (fun r e => scanCategory r e.1 e.2) acc).modules.length
  | [], acc => by
    intro hinv _
    exact hinv
  | (k, ms) :: cats, acc => by
    intro hinv hnd
    have hnd0 : (acc.modules.map Prod.fst ++ (ms.map (fun m => m.id)
        ++ ((cats.map Prod.snd).flatten.map (fun m => m.id)))).Nodup := by
      simpa [List.map_append] using hnd
    rw [← List.append_assoc] at hnd0
    have hnd1 : (acc.modules.map Prod.fst ++ ms.map (fun m => m.id)).Nodup :=
      (List.nodup_append.mp hnd0).1
    obtain ⟨h1, h2⟩ := registerFold_inv ms acc hinv (by exact hnd1)
    have hsc_mod : (scanCategory acc k ms).modules
        = (ms.foldl registerModuleMetadata acc).modules := rfl
    have hsc_tot : (scanCategory acc k ms).totalModules
        = (ms.foldl registerModuleMetadata acc).totalModules := rfl
    apply scanFold_inv cats (scanCategory acc k ms)
    · rw [hsc_mod, hsc_tot]
      exact h1
    · rw [hsc_mod, h2]
      exact hnd0

/-- C2 (amended): the counter equals the map size after a scan over
pairwise-distinct discovered ids, after both merges (which recompute it),
after a remove on a well-formed registry, and after adding a module whose
id is fresh.  (Adding an id that already exists breaks the equality: see the
counterexample.) -/
theorem C2_totalModules_eq_size :
    (∀ (reg : Registry) (perCategory : List (String × List ModuleData)) (now : Nat),
      (((perCategory.map Prod.snd).flatten).map (fun m => m.id)).Nodup →
      (scanForModules reg perCategory now).totalModules
        = (scanForModules reg perCategory now).modules.length) ∧
    (∀ (L R : Registry) (now : Nat),
      (mergeRegistries L R now).totalModules
        = (mergeRegistries L R now).modules.length) ∧
    (∀ (reg imp : Registry) (now : Nat),
      (importRegistry reg imp now).totalModules
        = (importRegistry reg imp now).modules.length) ∧
    (∀ (reg : Registry) (id : String) (now : Nat),
      KeysNodup reg.modules → reg.totalModules = reg.modules.length →
      (removeModule reg id now).totalModules
        = (removeModule reg id now).modules.length) ∧
    (∀ (reg : Registry) (m : ModuleData) (now : Nat),
      reg.totalModules = reg.modules.length → getVal reg.modules m.id = none →
      (addModule reg m now).totalModules = (addModule reg m now).modules.length) := by
  refine ⟨?_, ?_, ?_, ?_, ?_⟩
  · intro reg perCategory now hnd
    exact scanFold_inv perCategory _ rfl (by simpa using hnd)
  · intro L R now
    rfl
  · intro reg imp now
    rfl
  · intro reg id now hnd hinv
    cases hl : getVal reg.modules id with
    | none =>
      simp only [removeModule, hl]
      exact hinv
    | some m =>
      have hlen := length_eraseKey reg.modules id m hnd hl
      simp only [removeModule, hl]
      cases hc : getVal reg.categories m.category <;> simp only [hc] <;> omega
  · intro reg m now hinv hfresh
    have hf : m.id ∉ reg.modules.map Prod.fst := getVal_none_not_mem _ _ hfresh
    show reg.totalModules + 1 = (setVal reg.modules m.id m).length
    rw [length_setVal, if_neg hf, hinv]

/-- Counterexample to C2 as stated: `addModule` on an id that already exists
re-registers the record and increments `totalModules`, so the counter
exceeds the map size. -/
theorem C2_addModule_duplicate_counterexample :
    (addModule registryM1 moduleM1 1).totalModules = 2 ∧
    (addModule registryM1 moduleM1 1).modules.length = 1 ∧
    (addModule registryM1 moduleM1 1).totalModules
      ≠ (addModule registryM1 moduleM1 1).modules.length := by decide

/-- Witness for the amended C2 at a concrete scan. -/
theorem C2_totalModules_eq_size_witness :
    (scanForModules emptyRegistry [("aminosaeuren", [moduleM1])] 0).totalModules
      = (scanForModules emptyRegistry [("aminosaeuren", [moduleM1])] 0).modules.length :=
  C2_totalModules_eq_size.1 emptyRegistry [("aminosaeuren", [moduleM1])] 0 (by decide)

/-! ## Inverted index consistency (claim C1) -/

/-- Reading after appending a single fresh-or-shadowed entry. -/
theorem getVal_append_singleton : ∀ (m : List (String × α)) (k k' : String) (v : α),
    getVal (m ++ [(k, v)]) k' =
      match getVal m k' with
      | some w => some w
      | none => if k' = k then some v else none
  | [], k, k', v => by
    by_cases h : k' = k
    · simp [getVal, List.find?, h]
    · have : (k == k') = false := beq_eq_false_iff_ne.mpr (Ne.symm h)
      simp [getVal, List.find?, this, h]
  | e :: rest, k, k', v => by
    by_cases he : (e.1 == k') = true
    · simp [getVal, List.find?, he]
    · have hrec := getVal_append_singleton rest k k' v
      simpa [getVal, List.find?, he] using hrec

/-- `setVal` with a fresh key appends. -/
theorem setVal_append_fresh : ∀ (m : List (String × α)) (k : String) (v : α),
    k ∉ m.map Prod.fst → setVal m k v = m ++ [(k, v)]
  | [], k, v => by
    intro _
    rfl
  | e :: rest, k, v => by
    intro h
    have he : (e.1 == k) = false := by
      simp only [List.map_cons, List.mem_cons] at h
      exact beq_eq_false_iff_ne.mpr (fun hc => h (Or.inl hc.symm))
    rw [setVal, if_neg (by simp [he])]
    rw [setVal_append_fresh rest k v (fun hc => h (by simp [hc]))]
    rfl

/-- Folding `setVal` over entries with fresh, pairwise distinct keys appends
them all. -/
theorem setValFold_fresh : ∀ (ex : List (String × IndexedContent))
    (acc : List (String × IndexedContent)),
    (acc.map Prod.fst ++ ex.map Prod.fst).Nodup →
    ex.foldl (fun ix e => setVal ix e.1 e.2) acc = acc ++ ex
  | [], acc => by
    intro _
    simp
  | e :: ex, acc => by
    intro hnd
    have hfresh : e.1 ∉ acc.map Prod.fst := by
      intro hmem
      obtain ⟨_, _, hdisj⟩ := List.nodup_append.mp hnd
      exact hdisj hmem (by simp)
    rw [List.foldl_cons, setVal_append_fresh acc e.1 e.2 hfresh]
    have hnd' : ((acc ++ [e]).map Prod.fst ++ ex.map Prod.fst).Nodup := by
      rw [List.map_append, List.append_assoc]
      simpa using hnd
    rw [setValFold_fresh ex (acc ++ [e]) hnd', List.append_assoc]
    rfl

/-- The `index` field of the content-storing fold. -/
theorem storeFold_index : ∀ (ex : List (String × IndexedContent)) (st : SearchIndex),
    (ex.foldl storeContent st).index = ex.foldl (fun ix e => setVal ix e.1 e.2) st.index
  | [], _ => rfl
  | e :: ex, st => storeFold_index ex (storeContent st e)

/-- The content-storing fold does not touch the inverted index. -/
theorem storeFold_inverted : ∀ (ex : List (String × IndexedContent)) (st : SearchIndex),
    (ex.foldl storeContent st).invertedIndex = st.invertedIndex
  | [], _ => rfl
  | e :: ex, st => storeFold_inverted ex (storeContent st e)

/-- One posting-list insertion, membership-wise. -/
theorem invIndexAdd_mem (inv : List (String × List String)) (kw mid k m2 : String) :
    memInv (invIndexAdd inv kw mid) k m2 ↔ memInv inv k m2 ∨ (k = kw ∧ m2 = mid) := by
  cases hl : getVal inv kw with
  | none =>
    have hadd : invIndexAdd inv kw mid = inv ++ [(kw, [mid])] := by
      simp only [invIndexAdd, hl]
    rw [hadd]
    unfold memInv
    rw [getVal_append_singleton]
    by_cases hk : k = kw
    · subst hk
      rw [hl]
      simp [hl]
    · constructor
      · rintro ⟨lst, hlst, hm⟩
        cases hget : getVal inv k with
        | none =>
          rw [hget] at hlst
          simp [hk] at hlst
        | some w =>
          rw [hget] at hlst
          have hw : w = lst := by simpa using hlst
          refine Or.inl ⟨w, rfl, ?_⟩
          rw [hw]
          exact hm
      · rintro (⟨lst, hlst, hm⟩ | ⟨hkk, _⟩)
        · rw [hlst]
          exact ⟨lst, rfl, hm⟩
        · exact absurd hkk hk
  | some lst =>
    by_cases hmem : mid ∈ lst
    · have hadd : invIndexAdd inv kw mid = inv := by
        simp only [invIndexAdd, hl, if_pos hmem]
      rw [hadd]
      constructor
      · exact Or.inl
      · rintro (h | ⟨rfl, rfl⟩)
        · exact h
        · exact ⟨lst, hl, hmem⟩
    · have hadd : invIndexAdd inv kw mid = setVal inv kw (lst ++ [mid]) := by
        simp only [invIndexAdd, hl, if_neg hmem]
      rw [hadd]
      unfold memInv
      by_cases hk : k = kw
      · subst hk
        rw [getVal_setVal_self]
        constructor
        · rintro ⟨l2, hl2, hm⟩
          have hle : l2 = lst ++ [mid] := (Option.some.inj hl2).symm
          rw [hle] at hm
          rcases List.mem_append.mp hm with h | h
          · exact Or.inl ⟨lst, hl, h⟩
          · exact Or.inr ⟨rfl, List.mem_singleton.mp h⟩
        · rintro (⟨l2, hl2, hm⟩ | ⟨_, heq⟩)
          · have hle : l2 = lst := by
              rw [hl] at hl2
              exact (Option.some.inj hl2).symm
            refine ⟨lst ++ [mid], rfl, List.mem_append_left _ ?_⟩
            rw [← hle]
            exact hm
          · refine ⟨lst ++ [mid], rfl, List.mem_append_right _ ?_⟩
            rw [heq]
            exact List.mem_singleton_self _
      · rw [getVal_setVal_ne _ _ _ _ hk]
        constructor
        · exact fun h => Or.inl h
        · rintro (h | ⟨hkk, _⟩)
          · exact h
          · exact absurd hkk hk

/-- Folding a keyword list into the inverted index, membership-wise. -/
theorem invAddKeywords_mem :
    ∀ (kws : List String) (inv : List (String × List String)) (mid k m2 : String),
    memInv (kws.foldl (fun i kw => invIndexAdd i kw mid) inv) k m2 ↔
      memInv inv k m2 ∨ (k ∈ kws ∧ m2 = mid)
  | [], inv, mid, k, m2 => by simp
  | kw :: kws, inv, mid, k, m2 => by
    rw [List.foldl_cons, invAddKeywords_mem kws (invIndexAdd inv kw mid) mid k m2,
      invIndexAdd_mem]
    simp only [List.mem_cons]
    constructor
    · rintro ((h | ⟨rfl, rfl⟩) | ⟨hmem, rfl⟩)
      · exact Or.inl h
      · exact Or.inr ⟨Or.inl rfl, rfl⟩
      · exact Or.inr ⟨Or.inr hmem, rfl⟩
    · rintro (h | ⟨(rfl | hmem), rfl⟩)
      · exact Or.inl (Or.inl h)
      · exact Or.inl (Or.inr ⟨rfl, rfl⟩)
      · exact Or.inr ⟨hmem, rfl⟩

/-- The full `buildInvertedIndex` fold, membership-wise. -/
theorem buildInv_mem :
    ∀ (cs : List IndexedContent) (inv : List (String × List String)) (k m2 : String),
    memInv (cs.foldl
        (fun i c => c.keywords.foldl (fun i2 kw => invIndexAdd i2 kw c.moduleId) i)
        inv) k m2 ↔
      memInv inv k m2 ∨ ∃ c ∈ cs, k ∈ c.keywords ∧ m2 = c.moduleId
  | [], inv, k, m2 => by simp
  | c :: cs, inv, k, m2 => by
    rw [List.foldl_cons, buildInv_mem cs _ k m2, invAddKeywords_mem]
    simp only [List.mem_cons]
    constructor
    · rintro ((h | ⟨hk, rfl⟩) | ⟨c2, hc2, hkc, rfl⟩)
      · exact Or.inl h
      · exact Or.inr ⟨c, Or.inl rfl, hk, rfl⟩
      · exact Or.inr ⟨c2, Or.inr hc2, hkc, rfl⟩
    · rintro (h | ⟨c2, (rfl | hc2), hkc, rfl⟩)
      · exact Or.inl (Or.inl h)
      · exact Or.inl (Or.inr ⟨hkc, rfl⟩)
      · exact Or.inr ⟨c2, hc2, hkc, rfl⟩

/-- C1 (amended): after a fresh `buildIndex` the inverted index is exactly
the pure function of the stored content records (`m ∈ invertedIndex[k]` iff
`k` is a keyword of the record stored for `m`); after `importIndex` only the
forward containment is guaranteed, because the rebuild folds onto the
pre-import inverted index without clearing it. -/
theorem C1_inverted_index_consistency :
    (∀ (st : SearchIndex) (extracted : List (String × IndexedContent)),
      KeysNodup extracted → (∀ e ∈ extracted, e.2.moduleId = e.1) →
      ∀ k m, memInv (buildIndexFrom st extracted).invertedIndex k m ↔
        (∃ c, getVal (buildIndexFrom st extracted).index m = some c ∧
          k ∈ c.keywords)) ∧
    (∀ (st : SearchIndex) (importedIndex : List (String × IndexedContent))
      (importedKeywords : List String) (m : String) (c : IndexedContent) (k : String),
      getVal (importIndex st importedIndex importedKeywords).index m = some c →
      k ∈ c.keywords →
      memInv (importIndex st importedIndex importedKeywords).invertedIndex k
        c.moduleId) := by
  constructor
  · intro st extracted hnd hid k m
    have hindex : (buildIndexFrom st extracted).index = extracted := by
      show ((extracted.foldl storeContent (resetIndexState st))).index = extracted
      rw [storeFold_index]
      exact setValFold_fresh extracted [] (by simpa using hnd)
    have hinv0 : (extracted.foldl storeContent (resetIndexState st)).invertedIndex
        = [] := storeFold_inverted extracted (resetIndexState st)
    have hbuilt : (buildIndexFrom st extracted).invertedIndex =
        (valsOf (extracted.foldl storeContent (resetIndexState st)).index).foldl
          (fun i c => c.keywords.foldl (fun i2 kw => invIndexAdd i2 kw c.moduleId) i)
          [] := by
      show (buildInvertedIndex _).invertedIndex = _
      rw [buildInvertedIndex, hinv0]
    have hvals : (extracted.foldl storeContent (resetIndexState st)).index
        = extracted := hindex
    rw [hbuilt, hvals, buildInv_mem, hindex]
    have hnone : ¬ memInv [] k m := by
      rintro ⟨lst, hlst, _⟩
      simp [getVal, List.find?] at hlst
    constructor
    · rintro (h | ⟨c, hc, hkc, rfl⟩)
      · exact absurd h hnone
      · obtain ⟨e, he, rfl⟩ := List.mem_map.mp hc
        refine ⟨e.2, ?_, hkc⟩
        rw [hid e he]
        exact getVal_of_mem extracted e.1 e.2 hnd (by simpa using he)
    · rintro ⟨c, hc, hkc⟩
      refine Or.inr ⟨c, ?_, hkc, (hid (m, c) (mem_of_getVal extracted m c hc)).symm⟩
      exact List.mem_map.mpr ⟨(m, c), mem_of_getVal extracted m c hc, rfl⟩
  · intro st importedIndex importedKeywords m c k hget hk
    have hmem : (m, c) ∈ (importIndex st importedIndex importedKeywords).index :=
      mem_of_getVal _ m c hget
    have hindex_eq : (importIndex st importedIndex importedKeywords).index =
        importedIndex.foldl
          (fun (ix : List (String × IndexedContent)) e => setVal ix e.1 e.2)
          st.index := rfl
    have hinvIdx : (importIndex st importedIndex importedKeywords).invertedIndex =
        (valsOf (importIndex st importedIndex importedKeywords).index).foldl
          (fun i c2 => c2.keywords.foldl
            (fun i2 kw => invIndexAdd i2 kw c2.moduleId) i)
          st.invertedIndex := rfl
    rw [hinvIdx, buildInv_mem]
    exact Or.inr ⟨c, List.mem_map.mpr ⟨(m, c), hmem, rfl⟩, hk, rfl⟩

/-- Counterexample to C1 as stated: after an import-merge that overwrites
module `m1` with a record lacking keyword `alpha`, the stale posting
`invertedIndex["alpha"] ∋ m1` survives, so the biconditional fails. -/
theorem C1_import_stale_entry_counterexample :
    getVal indexStateImported.invertedIndex "alpha" = some ["m1"] ∧
    getVal indexStateImported.index "m1" = some contentBeta ∧
    "alpha" ∉ contentBeta.keywords ∧
    ¬ (∀ k m, memInv indexStateImported.invertedIndex k m ↔
        (∃ c, getVal indexStateImported.index m = some c ∧ k ∈ c.keywords)) := by
  refine ⟨by decide, by decide, by decide, ?_⟩
  intro hiff
  obtain ⟨c, hc, hkc⟩ := (hiff "alpha" "m1").mp ⟨["m1"], by decide, by decide⟩
  have hcB : c = contentBeta := by
    have h2 : getVal indexStateImported.index "m1" = some contentBeta := by decide
    rw [h2] at hc
    exact (Option.some.inj hc).symm
  rw [hcB] at hkc
  exact (by decide : "alpha" ∉ contentBeta.keywords) hkc

/-- Witness for the amended C1 on a concrete fresh build. -/
theorem C1_inverted_index_consistency_witness :
    memInv indexStateAlpha.invertedIndex "alpha" "m1" :=
  (C1_inverted_index_consistency.1 emptySearchIndex [("m1", contentAlpha)]
    (by decide) (by decide) "alpha" "m1").mpr ⟨contentAlpha, by decide, by decide⟩

/-! ## Search totality, ranking and the short-query guard (claim C7) -/

/-- C7: `search` always returns a ranked (descending-score) list truncated
to `maxResults` — it is a total function of the index state — and any query
shorter than 2 characters returns the empty list immediately. -/
theorem C7_search_short_query_and_ranked :
    (∀ (st : SearchIndex) (query : String) (opts : SearchOptions),
      query.length < 2 → search st query opts = []) ∧
    (∀ (st : SearchIndex) (query : String) (opts : SearchOptions),
      (search st query opts).Sorted
        (fun a b => b.relevanceScore ≤ a.relevanceScore) ∧
      (search st query opts).length ≤ opts.maxResults) := by
  have hshort : ∀ (st : SearchIndex) (query : String) (opts : SearchOptions),
      query.length < 2 → search st query opts = [] := by
    intro st query opts h
    simp only [search, searchCore, if_pos h]
  refine ⟨hshort, ?_⟩
  intro st query opts
  by_cases hq : query.length < 2
  · rw [hshort st query opts hq]
    exact ⟨List.sorted_nil, by simp⟩
  · haveI : IsTotal SearchResult (fun a b => b.relevanceScore ≤ a.relevanceScore) :=
      ⟨fun a b => le_total b.relevanceScore a.relevanceScore⟩
    haveI : IsTrans SearchResult (fun a b => b.relevanceScore ≤ a.relevanceScore) :=
      ⟨fun _ _ _ hab hbc => le_trans hbc hab⟩
    have heq : search st query opts =
        ((searchFiltered st query opts).insertionSort
          (fun a b => b.relevanceScore ≤ a.relevanceScore)).take opts.maxResults := by
      simp only [search, searchCore, if_neg hq]
    rw [heq]
    constructor
    · exact List.Pairwise.sublist (List.take_sublist _ _)
        (List.sorted_insertionSort _ _)
    · rw [List.length_take]
      exact min_le_left _ _

/-- Witness for C7 at a one-character query. -/
theorem C7_search_short_query_and_ranked_witness :
    "x".length < 2 ∧ search fuzzyProbeIndex "x" {} = [] :=
  ⟨by decide, C7_search_short_query_and_ranked.1 fuzzyProbeIndex "x" {} (by decide)⟩

/-! ## The fuzzy comparison budget (claim C8) -/

/-- Counting in the inner fuzzy loop: every comparison either increments
`fuzzyChecks` or ends the loop as the (single) match, and at most one
comparison per query keyword happens. -/
theorem fuzzyInner_counts :
    ∀ (qks : List String) (st : SearchIndex) (inc : Bool) (thr : ℚ) (ik : String)
      (s : FuzzyState),
    (fuzzyInner st inc thr ik qks s).comps + s.fuzzyChecks + s.matched
      = s.comps + (fuzzyInner st inc thr ik qks s).fuzzyChecks
        + (fuzzyInner st inc thr ik qks s).matched ∧
    (fuzzyInner st inc thr ik qks s).fuzzyChecks ≤ s.fuzzyChecks + qks.length
  | [], st, inc, thr, ik, s => by
    have h : fuzzyInner st inc thr ik [] s = s := rfl
    rw [h]
    exact ⟨by omega, by simp⟩
  | qk :: rest, st, inc, thr, ik, s => by
    rw [fuzzyInner]
    by_cases hcond : thr < calculateJaroWinkler qk.toList ik.toList ∧
        calculateJaroWinkler qk.toList ik.toList < 1
    · rw [if_pos hcond]
      constructor
      · simp only []
        omega
      · simp only [List.length_cons]
        omega
    · rw [if_neg hcond]
      obtain ⟨ih1, ih2⟩ := fuzzyInner_counts rest st inc thr ik
        { s with comps := s.comps + 1, fuzzyChecks := s.fuzzyChecks + 1 }
      constructor
      · simp only [] at ih1 ⊢
        omega
      · simp only [List.length_cons] at ih2 ⊢
        omega

/-- The outer fuzzy loop stops whenever the check counter has reached the
cap. -/
theorem fuzzyOuter_break :
    ∀ (iks : List String) (st : SearchIndex) (inc : Bool) (thr : ℚ)
      (maxFC : Nat) (qks : List String) (q0len : Nat) (s : FuzzyState),
    maxFC ≤ s.fuzzyChecks →
    fuzzyOuter st inc thr maxFC qks q0len iks s = s
  | [], _, _, _, _, _, _, _ => by
    intro _
    rfl
  | ik :: iks, st, inc, thr, maxFC, qks, q0len, s => by
    intro h
    rw [fuzzyOuter, if_pos h]

/-- Counting in the outer fuzzy loop: total comparisons equal
`fuzzyChecks + matched`, and the counter never exceeds
`maxFuzzyChecks + |queryKeywords| - 1`. -/
theorem fuzzyOuter_counts :
    ∀ (iks : List String) (st : SearchIndex) (inc : Bool) (thr : ℚ)
      (maxFC : Nat) (qks : List String) (q0len : Nat) (s : FuzzyState),
    (fuzzyOuter st inc thr maxFC qks q0len iks s).comps + s.fuzzyChecks + s.matched
      = s.comps + (fuzzyOuter st inc thr maxFC qks q0len iks s).fuzzyChecks
        + (fuzzyOuter st inc thr maxFC qks q0len iks s).matched ∧
    (fuzzyOuter st inc thr maxFC qks q0len iks s).fuzzyChecks
      ≤ max s.fuzzyChecks (maxFC + qks.length - 1)
  | [], st, inc, thr, maxFC, qks, q0len, s => by
    have h : fuzzyOuter st inc thr maxFC qks q0len [] s = s := rfl
    rw [h]
    exact ⟨by omega, le_max_left _ _⟩
  | ik :: iks, st, inc, thr, maxFC, qks, q0len, s => by
    rw [fuzzyOuter]
    by_cases hstop : s.fuzzyChecks ≥ maxFC
    · rw [if_pos hstop]
      exact ⟨by omega, le_max_left _ _⟩
    · rw [if_neg hstop]
      by_cases hlen : ((ik.length : Int) - (q0len : Int)).natAbs > 3
      · rw [if_pos hlen]
        exact fuzzyOuter_counts iks st inc thr maxFC qks q0len s
      · rw [if_neg hlen]
        obtain ⟨hin1, hin2⟩ := fuzzyInner_counts qks st inc thr ik s
        obtain ⟨ih1, ih2⟩ := fuzzyOuter_counts iks st inc thr maxFC qks q0len
          (fuzzyInner st inc thr ik qks s)
        constructor
        · omega
        · omega

/-- C8 (amended): the counter only counts failed comparisons and is checked
only between indexed keywords, so a search performs at most
`maxFuzzyChecks + |queryKeywords| - 1` failed comparisons plus one
comparison per credited fuzzy match; once `fuzzyChecks` has reached the cap
no further indexed keyword is examined. -/
theorem C8_fuzzy_comparison_budget :
    (∀ (st : SearchIndex) (query : String) (opts : SearchOptions),
      searchFuzzyComps st query opts ≤
        opts.maxFuzzyChecks + (extractKeywords query).length - 1
          + searchFuzzyMatched st query opts) ∧
    (∀ (st : SearchIndex) (inc : Bool) (thr : ℚ) (maxFC : Nat)
      (qks : List String) (q0len : Nat) (iks : List String) (s : FuzzyState),
      maxFC ≤ s.fuzzyChecks →
      fuzzyOuter st inc thr maxFC qks q0len iks s = s) := by
  refine ⟨?_, fun st inc thr maxFC qks q0len iks s h =>
    fuzzyOuter_break iks st inc thr maxFC qks q0len s h⟩
  intro st query opts
  by_cases hq : query.length < 2
  · have hc : searchFuzzyComps st query opts = 0 := by
      simp only [searchFuzzyComps, searchCore, if_pos hq]
    rw [hc]
    exact Nat.zero_le _
  · have hc : searchFuzzyComps st query opts = (searchPipeline st query opts).comps := by
      simp only [searchFuzzyComps, searchCore, if_neg hq]
    have hm : searchFuzzyMatched st query opts = (searchPipeline st query opts).matched := by
      simp only [searchFuzzyMatched, searchCore, if_neg hq]
    rw [hc, hm]
    simp only [searchPipeline]
    by_cases hg : opts.fuzzySearch ∧ (extractKeywords query).length > 0
    · rw [if_pos hg]
      obtain ⟨h1, h2⟩ := fuzzyOuter_counts (keysOf st.invertedIndex) st
        opts.includeExcerpts opts.fuzzyThreshold opts.maxFuzzyChecks
        (extractKeywords query) (((extractKeywords query).headD "").length)
        { results := exactPhase st (extractKeywords query) opts.includeExcerpts,
          fuzzyChecks := 0, comps := 0, matched := 0 }
      simp only [] at h1 h2
      omega
    · rw [if_neg hg]
      exact Nat.zero_le _

/-- Counterexample to C8 as stated: with `maxFuzzyChecks = 1` and two query
tokens, the inner loop computes two Jaro-Winkler similarities before the
cap is ever consulted again. -/
theorem C8_comps_exceed_cap_counterexample :
    searchFuzzyComps fuzzyProbeIndex "abc abd" { maxFuzzyChecks := 1 } = 2 ∧
    ¬ searchFuzzyComps fuzzyProbeIndex "abc abd" { maxFuzzyChecks := 1 } ≤ 1 := by
  exact ⟨by decide, by decide⟩

/-- Witness for the amended C8: a state at the cap is returned untouched. -/
theorem C8_fuzzy_comparison_budget_witness :
    (3 : Nat) ≤ 5 ∧
    fuzzyOuter fuzzyProbeIndex true (mkRat 7 10) 3 ["abc"] 3 ["qqq"]
      ⟨[], 5, 0, 0⟩ = ⟨[], 5, 0, 0⟩ :=
  ⟨by decide, C8_fuzzy_comparison_budget.2 fuzzyProbeIndex true (mkRat 7 10) 3
    ["abc"] 3 ["qqq"] ⟨[], 5, 0, 0⟩ (by decide)⟩

/-! ## Merged search history (claim C10) -/

/-- `histStep` preserves pairwise-distinct queries. -/
theorem distinctQueries_histStep (acc : List SearchHistoryItem) (i : SearchHistoryItem)
    (h : acc.Pairwise (fun a b => a.query ≠ b.query)) :
    (histStep acc i).Pairwise (fun a b => a.query ≠ b.query) := by
  have hfilter : (acc.filter (fun x => !(x.query == i.query))).Pairwise
      (fun a b => a.query ≠ b.query) :=
    List.Pairwise.sublist (List.filter_sublist acc) h
  have happend : (acc.filter (fun x => !(x.query == i.query)) ++ [i]).Pairwise
      (fun a b => a.query ≠ b.query) := by
    rw [List.pairwise_append]
    refine ⟨hfilter, List.pairwise_singleton _ _, ?_⟩
    intro a ha b hb
    rcases List.mem_singleton.mp hb with rfl
    have := (List.mem_filter.mp ha).2
    simpa using this
  cases hfind : acc.find? (fun x => x.query == i.query) with
  | none => simpa only [histStep, hfind] using happend
  | some ex =>
    by_cases hts : ex.timestamp < i.timestamp
    · simpa only [histStep, hfind, if_pos hts] using happend
    · simpa only [histStep, hfind, if_neg hts] using h

/-- The fold of `histStep` keeps queries pairwise distinct. -/
theorem histFold_distinct :
    ∀ (L acc : List SearchHistoryItem),
      acc.Pairwise (fun a b => a.query ≠ b.query) →
      (L.foldl histStep acc).Pairwise (fun a b => a.query ≠ b.query)
  | [], _ => fun h => h
  | i :: L, acc => fun h =>
    histFold_distinct L (histStep acc i) (distinctQueries_histStep acc i h)

/-- In a list with pairwise-distinct queries, two members sharing a query
are equal. -/
theorem pairwise_query_inj :
    ∀ (l : List SearchHistoryItem),
      l.Pairwise (fun a b => a.query ≠ b.query) →
      ∀ a ∈ l, ∀ b ∈ l, a.query = b.query → a = b
  | [] => by
    intro _ a ha
    exact absurd ha (List.not_mem_nil a)
  | x :: xs => by
    intro hl a ha b hb hq
    rcases List.mem_cons.mp ha with rfl | ha'
    · rcases List.mem_cons.mp hb with rfl | hb'
      · rfl
      · exact absurd hq ((List.pairwise_cons.mp hl).1 b hb')
    · rcases List.mem_cons.mp hb with rfl | hb'
      · exact absurd hq.symm ((List.pairwise_cons.mp hl).1 a ha')
      · exact pairwise_query_inj xs (List.pairwise_cons.mp hl).2 a ha' b hb' hq

/-- One `histStep` keeps the accumulator dominating every processed entry
(same query present with at least that timestamp). -/
theorem histStep_dominates (acc p : List SearchHistoryItem) (i : SearchHistoryItem)
    (hd : acc.Pairwise (fun a b => a.query ≠ b.query))
    (hdom : ∀ x ∈ p, ∃ it ∈ acc, it.query = x.query ∧ x.timestamp ≤ it.timestamp) :
    ∀ x ∈ p ++ [i], ∃ it ∈ histStep acc i,
      it.query = x.query ∧ x.timestamp ≤ it.timestamp := by
  intro x hx
  cases hfind : acc.find? (fun h => h.query == i.query) with
  | none =>
    have hall := List.find?_eq_none.mp hfind
    have hfilter : acc.filter (fun h => !(h.query == i.query)) = acc := by
      apply List.filter_eq_self.mpr
      intro h hh
      simpa using hall h hh
    simp only [histStep, hfind, hfilter]
    rcases List.mem_append.mp hx with hx' | hx'
    · obtain ⟨it, hit, hq, hts⟩ := hdom x hx'
      exact ⟨it, List.mem_append_left _ hit, hq, hts⟩
    · have heq : x = i := List.mem_singleton.mp hx'
      exact ⟨i, List.mem_append_right _ (List.mem_singleton_self i),
        by rw [heq], le_of_eq (by rw [heq])⟩
  | some ex =>
    have hex_mem : ex ∈ acc := List.mem_of_find?_eq_some hfind
    have hex_q : ex.query = i.query := by
      have := List.find?_some hfind
      simpa using this
    by_cases hts : ex.timestamp < i.timestamp
    · simp only [histStep, hfind, if_pos hts]
      rcases List.mem_append.mp hx with hx' | hx'
      · obtain ⟨it, hit, hq, hxts⟩ := hdom x hx'
        by_cases hq2 : it.query = i.query
        · have heq : it = ex := pairwise_query_inj acc hd it hit ex hex_mem
            (hq2.trans hex_q.symm)
          subst heq
          refine ⟨i, List.mem_append_right _ (List.mem_singleton_self i), ?_, ?_⟩
          · rw [← hq2, hq]
          · exact le_of_lt (lt_of_le_of_lt hxts hts)
        · refine ⟨it, List.mem_append_left _ ?_, hq, hxts⟩
          apply List.mem_filter.mpr
          refine ⟨hit, ?_⟩
          simpa using hq2
      · have heq : x = i := List.mem_singleton.mp hx'
        exact ⟨i, List.mem_append_right _ (List.mem_singleton_self i),
          by rw [heq], le_of_eq (by rw [heq])⟩
    · simp only [histStep, hfind, if_neg hts]
      rcases List.mem_append.mp hx with hx' | hx'
      · exact hdom x hx'
      · have heq : x = i := List.mem_singleton.mp hx'
        refine ⟨ex, hex_mem, ?_, ?_⟩
        · rw [heq]; exact hex_q
        · rw [heq]; exact le_of_not_lt hts

/-- The fold of `histStep` dominates every processed entry. -/
theorem histFold_dominates :
    ∀ (L acc p : List SearchHistoryItem),
      acc.Pairwise (fun a b => a.query ≠ b.query) →
      (∀ x ∈ p, ∃ it ∈ acc, it.query = x.query ∧ x.timestamp ≤ it.timestamp) →
      ∀ x ∈ p ++ L, ∃ it ∈ L.foldl histStep acc,
        it.query = x.query ∧ x.timestamp ≤ it.timestamp
  | [], acc, p, _, hdom => by simpa using hdom
  | i :: L, acc, p, hd, hdom => by
    have hd' := distinctQueries_histStep acc i hd
    have hdom' := histStep_dominates acc p i hd hdom
    have hrec := histFold_dominates L (histStep acc i) (p ++ [i]) hd' hdom'
    intro x hx
    apply hrec
    rw [List.append_assoc]
    simpa using hx

/-- C10: the merged search history holds at most 50 entries, at most one
entry per query (the one with the maximal timestamp over both inputs), and
is sorted by descending timestamp. -/
theorem C10_mergeUserData_history (localData remote : UserData) (now : Nat) :
    (mergeUserData localData remote now).searchHistory.length ≤ 50 ∧
    (mergeUserData localData remote now).searchHistory.Pairwise
      (fun a b => a.query ≠ b.query) ∧
    (mergeUserData localData remote now).searchHistory.Sorted
      (fun a b => b.timestamp ≤ a.timestamp) ∧
    (∀ it ∈ (mergeUserData localData remote now).searchHistory,
      ∀ x ∈ localData.searchHistory ++ remote.searchHistory,
        x.query = it.query → x.timestamp ≤ it.timestamp) := by
  haveI : IsTotal SearchHistoryItem (fun a b => b.timestamp ≤ a.timestamp) :=
    ⟨fun a b => le_total b.timestamp a.timestamp⟩
  haveI : IsTrans SearchHistoryItem (fun a b => b.timestamp ≤ a.timestamp) :=
    ⟨fun _ _ _ hab hbc => le_trans hbc hab⟩
  have hhist : (mergeUserData localData remote now).searchHistory =
      (((localData.searchHistory ++ remote.searchHistory).foldl histStep
        []).insertionSort (fun a b => b.timestamp ≤ a.timestamp)).take 50 := rfl
  have hdU := histFold_distinct (localData.searchHistory ++ remote.searchHistory) []
    List.Pairwise.nil
  have hperm := List.perm_insertionSort (fun a b => b.timestamp ≤ a.timestamp)
    ((localData.searchHistory ++ remote.searchHistory).foldl histStep [])
  refine ⟨?_, ?_, ?_, ?_⟩
  · rw [hhist, List.length_take]
    exact min_le_left _ _
  · rw [hhist]
    apply List.Pairwise.sublist (List.take_sublist _ _)
    exact (hperm.pairwise_iff (fun hab => Ne.symm hab)).mpr hdU
  · rw [hhist]
    apply List.Pairwise.sublist (List.take_sublist _ _)
    exact List.sorted_insertionSort _ _
  · intro it hit x hx hq
    rw [hhist] at hit
    have hit2 := (hperm.mem_iff).mp (List.take_subset _ _ hit)
    obtain ⟨it', hit', hq', hts'⟩ := histFold_dominates
      (localData.searchHistory ++ remote.searchHistory) [] [] List.Pairwise.nil
      (by intro y hy; cases hy) x (by simpa using hx)
    have heq : it' = it := pairwise_query_inj _ hdU it' hit' it hit2 (hq'.trans hq)
    rw [← heq]
    exact hts'

/-- Witness for C10 at concrete user data. -/
theorem C10_mergeUserData_history_witness :
    (⟨"pku", 7⟩ : SearchHistoryItem) ∈ (mergeUserData userDataA userDataB 1).searchHistory ∧
    (⟨"pku", 3⟩ : SearchHistoryItem) ∈ userDataA.searchHistory ++ userDataB.searchHistory ∧
    (3 : Nat) ≤ 7 :=
  ⟨by decide, by decide,
    (C10_mergeUserData_history userDataA userDataB 1).2.2.2 ⟨"pku", 7⟩ (by decide)
      ⟨"pku", 3⟩ (by decide) rfl⟩

/-! ## Jaro-Winkler symmetry (claim C5)

The match phase `jwGreedy` decomposes into independent greedy loops `gcls`
per character class.  On sorted position lists the per-class loop is
symmetric: swapping the two lists transposes the produced pairs.  From the
decomposition, the full pair set is symmetric, hence the match count and
(via the sorted column list) the transposition count are symmetric, and so
is the final similarity. -/

/-- `gcls` with no columns matches nothing. -/
theorem gcls_nil_right : ∀ (w : Nat) (A : List Nat), gcls w A [] = []
  | _, [] => rfl
  | w, _ :: A => gcls_nil_right w A

/-- A column strictly below every row's window is never matched. -/
theorem gcls_drop_col : ∀ (w : Nat) (A : List Nat) (x : Nat) (B : List Nat),
    (∀ a ∈ A, x + w < a) →
    gcls w A (x :: B) = gcls w A B
  | _, [], _, _ => by
    intro _
    rfl
  | w, a :: A, x, B => by
    intro h
    have hx : jwInWindow w a x = false := by
      have := h a (List.mem_cons_self a A)
      simp only [jwInWindow, Bool.and_eq_false_iff, decide_eq_false_iff_not]
      omega
    have hfeq : (x :: B).find? (fun b => jwInWindow w a b)
        = B.find? (fun b => jwInWindow w a b) :=
      List.find?_cons_of_neg _ (by simp [hx])
    cases hf : B.find? (fun b => jwInWindow w a b) with
    | none =>
      simp only [gcls, hfeq, hf]
      exact gcls_drop_col w A x B (fun a' ha' => h a' (List.mem_cons_of_mem a ha'))
    | some b =>
      have hbx : ¬ x = b := by
        intro hbx
        have hb := List.find?_some hf
        rw [← hbx] at hb
        rw [hx] at hb
        cases hb
      have herase : (x :: B).erase b = x :: B.erase b := by
        rw [List.erase_cons_tail]
        simp [hbx]
      simp only [gcls, hfeq, hf, herase]
      rw [gcls_drop_col w A x (B.erase b)
        (fun a' ha' => h a' (List.mem_cons_of_mem a ha'))]

/-- No column strictly above the row's window can be found. -/
theorem gcls_none_of_above (w : Nat) (a : Nat) (B : List Nat)
    (h : ∀ b ∈ B, a + w < b) :
    B.find? (fun b => jwInWindow w a b) = none := by
  apply List.find?_eq_none.mpr
  intro b hb
  have := h b hb
  simp only [jwInWindow, Bool.and_eq_true, decide_eq_true_eq, not_and]
  omega

/-- Per-class symmetry: on sorted position lists the greedy matching of rows
to columns transposes under swapping the lists. -/
theorem gcls_symm : ∀ (n w : Nat) (A B : List Nat), A.length + B.length ≤ n →
    A.Sorted (· < ·) → B.Sorted (· < ·) →
    gcls w A B = (gcls w B A).map Prod.swap
  | _, w, [], B, _, _, _ => by
    rw [gcls_nil_right]
    rfl
  | _, w, a :: A, [], _, _, _ => by
    rw [gcls_nil_right]
    rfl
  | 0, w, a :: A, b :: B, hn, _, _ => by
    simp at hn
  | Nat.succ n, w, a :: A, b :: B, hn, hA, hB => by
    by_cases h1 : a ≤ b + w
    · by_cases h2 : b ≤ a + w
      · have hwin : jwInWindow w a b = true := by
          simp only [jwInWindow, Bool.and_eq_true, decide_eq_true_eq]
          omega
        have hwin2 : jwInWindow w b a = true := by
          simp only [jwInWindow, Bool.and_eq_true, decide_eq_true_eq]
          omega
        have hf1 : (b :: B).find? (fun x => jwInWindow w a x) = some b :=
          List.find?_cons_of_pos _ hwin
        have hf2 : (a :: A).find? (fun x => jwInWindow w b x) = some a :=
          List.find?_cons_of_pos _ hwin2
        simp only [gcls, hf1, hf2, List.erase_cons_head, List.map_cons]
        rw [gcls_symm n w A B (by simp at hn ⊢; omega)
          (List.Sorted.of_cons hA) (List.Sorted.of_cons hB)]
        rfl
      · have hnone : (b :: B).find? (fun x => jwInWindow w a x) = none := by
          apply gcls_none_of_above
          intro x hx
          rcases List.mem_cons.mp hx with rfl | hx'
          · omega
          · have := List.rel_of_sorted_cons hB x hx'
            omega
        have hdrop : gcls w (b :: B) (a :: A) = gcls w (b :: B) A := by
          apply gcls_drop_col
          intro x hx
          rcases List.mem_cons.mp hx with rfl | hx'
          · omega
          · have := List.rel_of_sorted_cons hB x hx'
            omega
        rw [hdrop]
        have hleft : gcls w (a :: A) (b :: B) = gcls w A (b :: B) := by
          simp only [gcls, hnone]
        rw [hleft]
        exact gcls_symm n w A (b :: B) (by simp at hn ⊢; omega)
          (List.Sorted.of_cons hA) hB
    · have hdrop : gcls w (a :: A) (b :: B) = gcls w (a :: A) B := by
        apply gcls_drop_col
        intro x hx
        rcases List.mem_cons.mp hx with rfl | hx'
        · omega
        · have := List.rel_of_sorted_cons hA x hx'
          omega
      rw [hdrop]
      have hnone : (a :: A).find? (fun x => jwInWindow w b x) = none := by
        apply gcls_none_of_above
        intro x hx
        rcases List.mem_cons.mp hx with rfl | hx'
        · omega
        · have := List.rel_of_sorted_cons hA x hx'
          omega
      have hright : gcls w (b :: B) (a :: A) = gcls w B (a :: A) := by
        simp only [gcls, hnone]
      rw [hright]
      exact gcls_symm n w (a :: A) B (by simp at hn ⊢; omega)
        hA (List.Sorted.of_cons hB)

/-- Searching for the first same-character in-window column is the search
for the first in-window position within the character class. -/
theorem find?_class : ∀ (B : List (Nat × Char)) (c : Char) (Q : Nat → Bool),
    B.find? (fun b => b.2 == c && Q b.1)
      = ((clsRows c B).find? Q).map (fun j => (j, c))
  | [], _, _ => rfl
  | e :: B, c, Q => by
    by_cases hc : (e.2 == c) = true
    · have hce : e.2 = c := by simpa using hc
      have hcls : clsRows c (e :: B) = e.1 :: clsRows c B := by
        simp [clsRows, List.filter_cons, hc]
      by_cases hq : Q e.1 = true
      · rw [List.find?_cons_of_pos _ (by simp [hc, hq]), hcls,
          List.find?_cons_of_pos _ hq]
        exact congrArg some (Prod.ext rfl hce)
      · rw [List.find?_cons_of_neg _ (by simp [hq]), hcls,
          List.find?_cons_of_neg _ (by simpa using hq)]
        exact find?_class B c Q
    · have hcls : clsRows c (e :: B) = clsRows c B := by
        simp [clsRows, List.filter_cons, hc]
      rw [List.find?_cons_of_neg _ (by simp [hc]), hcls]
      exact find?_class B c Q

/-- Erasing an entry of class `c` erases its position from the class rows,
provided first components are unique. -/
theorem clsRows_erase_self : ∀ (B : List (Nat × Char)) (j : Nat) (c : Char),
    (B.map Prod.fst).Nodup → (j, c) ∈ B →
    clsRows c (B.erase (j, c)) = (clsRows c B).erase j
  | [], j, c => by
    intro _ hm
    cases hm
  | e :: B, j, c => by
    intro hnd hm
    by_cases he : e = (j, c)
    · have h0 : (e :: B).erase (j, c) = B := by
        rw [he]
        exact List.erase_cons_head (j, c) B
      have h1 : clsRows c (e :: B) = j :: clsRows c B := by
        rw [he]
        simp [clsRows, List.filter_cons]
      rw [h0, h1, List.erase_cons_head]
    · have herase : (e :: B).erase (j, c) = e :: B.erase (j, c) := by
        rw [List.erase_cons_tail]
        simp [he]
      have hmB : (j, c) ∈ B := by
        rcases List.mem_cons.mp hm with h | h
        · exact absurd h.symm he
        · exact h
      have hndB : (B.map Prod.fst).Nodup := (List.nodup_cons.mp hnd).2
      rw [herase]
      by_cases hc : (e.2 == c) = true
      · have hne : e.1 ≠ j := by
          intro hej
          have hjmem : j ∈ B.map Prod.fst := List.mem_map.mpr ⟨(j, c), hmB, rfl⟩
          rw [← hej] at hjmem
          exact (List.nodup_cons.mp hnd).1 hjmem
        have h1 : clsRows c (e :: B.erase (j, c))
            = e.1 :: clsRows c (B.erase (j, c)) := by
          simp [clsRows, List.filter_cons, hc]
        have h2 : clsRows c (e :: B) = e.1 :: clsRows c B := by
          simp [clsRows, List.filter_cons, hc]
        have h3 : (e.1 :: clsRows c B).erase j = e.1 :: (clsRows c B).erase j := by
          rw [List.erase_cons_tail]
          simp [hne]
        rw [h1, h2, h3, clsRows_erase_self B j c hndB hmB]
      · have h1 : clsRows c (e :: B.erase (j, c)) = clsRows c (B.erase (j, c)) := by
          simp [clsRows, List.filter_cons, hc]
        have h2 : clsRows c (e :: B) = clsRows c B := by
          simp [clsRows, List.filter_cons, hc]
        rw [h1, h2, clsRows_erase_self B j c hndB hmB]

/-- Erasing an entry of a different class leaves the class rows unchanged. -/
theorem clsRows_erase_other : ∀ (B : List (Nat × Char)) (x : Nat × Char)
    (c : Char), x.2 ≠ c → clsRows c (B.erase x) = clsRows c B
  | [], _, _ => by
    intro _
    rfl
  | e :: B, x, c => by
    intro hx
    by_cases he : e = x
    · have h0 : (e :: B).erase x = B := by
        rw [he]
        exact List.erase_cons_head x B
      have hec : (e.2 == c) = false := by
        rw [he]
        exact beq_eq_false_iff_ne.mpr hx
      rw [h0]
      simp [clsRows, List.filter_cons, hec]
    · have h0 : (e :: B).erase x = e :: B.erase x := by
        rw [List.erase_cons_tail]
        simp [he]
      rw [h0]
      by_cases hc : (e.2 == c) = true
      · have h1 : clsRows c (e :: B.erase x) = e.1 :: clsRows c (B.erase x) := by
          simp [clsRows, List.filter_cons, hc]
        have h2 : clsRows c (e :: B) = e.1 :: clsRows c B := by
          simp [clsRows, List.filter_cons, hc]
        rw [h1, h2, clsRows_erase_other B x c hx]
      · have h1 : clsRows c (e :: B.erase x) = clsRows c (B.erase x) := by
          simp [clsRows, List.filter_cons, hc]
        have h2 : clsRows c (e :: B) = clsRows c B := by
          simp [clsRows, List.filter_cons, hc]
        rw [h1, h2, clsRows_erase_other B x c hx]

/-- Uniqueness of first components survives erasing an entry. -/
theorem nodupFst_erase (B : List (Nat × Char)) (x : Nat × Char)
    (h : (B.map Prod.fst).Nodup) : ((B.erase x).map Prod.fst).Nodup :=
  h.sublist ((B.erase_sublist x).map Prod.fst)

/-- The matched rows form a sublist of the row positions. -/
theorem jwGreedy_rows_sublist : ∀ (w : Nat) (A B : List (Nat × Char)),
    List.Sublist ((jwGreedy w A B).map Prod.fst) (A.map Prod.fst)
  | _, [], _ => by simp [jwGreedy]
  | w, a :: A, B => by
    cases hf : B.find? (fun b => b.2 == a.2 && jwInWindow w a.1 b.1) with
    | some b =>
      simp only [jwGreedy, hf, List.map_cons]
      exact List.Sublist.cons₂ _ (jwGreedy_rows_sublist w A (B.erase b))
    | none =>
      simp only [jwGreedy, hf, List.map_cons]
      exact List.Sublist.cons _ (jwGreedy_rows_sublist w A B)

/-- Every matched column is a column position. -/
theorem jwGreedy_cols_mem : ∀ (w : Nat) (A B : List (Nat × Char))
    (p : Nat × Nat), p ∈ jwGreedy w A B → p.2 ∈ B.map Prod.fst
  | _, [], _, _ => by
    intro hp
    cases hp
  | w, a :: A, B, p => by
    intro hp
    cases hf : B.find? (fun b => b.2 == a.2 && jwInWindow w a.1 b.1) with
    | some b =>
      rw [show jwGreedy w (a :: A) B = (a.1, b.1) :: jwGreedy w A (B.erase b) by
        simp only [jwGreedy, hf]] at hp
      rcases List.mem_cons.mp hp with h | h
      · rw [h]
        exact List.mem_map.mpr ⟨b, List.mem_of_find?_eq_some hf, rfl⟩
      · have := jwGreedy_cols_mem w A (B.erase b) p h
        exact ((B.erase_sublist b).map Prod.fst).mem this
    | none =>
      rw [show jwGreedy w (a :: A) B = jwGreedy w A B by
        simp only [jwGreedy, hf]] at hp
      exact jwGreedy_cols_mem w A B p hp

/-- Per-class rows of `gcls` are taken from the row list. -/
theorem gcls_rows_mem : ∀ (w : Nat) (A B : List Nat) (p : Nat × Nat),
    p ∈ gcls w A B → p.1 ∈ A
  | _, [], _, _ => by
    intro hp
    cases hp
  | w, a :: A, B, p => by
    intro hp
    cases hf : B.find? (fun b => jwInWindow w a b) with
    | some b =>
      rw [show gcls w (a :: A) B = (a, b) :: gcls w A (B.erase b) by
        simp only [gcls, hf]] at hp
      rcases List.mem_cons.mp hp with h | h
      · rw [h]
        exact List.mem_cons_self a A
      · exact List.mem_cons_of_mem a (gcls_rows_mem w A (B.erase b) p h)
    | none =>
      rw [show gcls w (a :: A) B = gcls w A B by simp only [gcls, hf]] at hp
      exact List.mem_cons_of_mem a (gcls_rows_mem w A B p hp)

/-- Per-class columns of `gcls` are taken from the column list. -/
theorem gcls_cols_mem : ∀ (w : Nat) (A B : List Nat) (p : Nat × Nat),
    p ∈ gcls w A B → p.2 ∈ B
  | _, [], _, _ => by
    intro hp
    cases hp
  | w, a :: A, B, p => by
    intro hp
    cases hf : B.find? (fun b => jwInWindow w a b) with
    | some b =>
      rw [show gcls w (a :: A) B = (a, b) :: gcls w A (B.erase b) by
        simp only [gcls, hf]] at hp
      rcases List.mem_cons.mp hp with h | h
      · rw [h]
        exact List.mem_of_find?_eq_some hf
      · exact (B.erase_sublist b).mem (gcls_cols_mem w A (B.erase b) p h)
    | none =>
      rw [show gcls w (a :: A) B = gcls w A B by simp only [gcls, hf]] at hp
      exact gcls_cols_mem w A B p hp

/-- Decomposition of the greedy match into per-character-class loops: the
matched pairs whose row holds character `c` are exactly the pairs of the
class-`c` greedy loop on the bare position lists. -/
theorem jwGreedy_decomp : ∀ (w : Nat) (A B : List (Nat × Char)) (c : Char),
    (A.map Prod.fst).Nodup → (B.map Prod.fst).Nodup →
    (jwGreedy w A B).filter (fun p => decide ((p.1, c) ∈ A))
      = gcls w (clsRows c A) (clsRows c B)
  | _, [], _, _ => by
    intro _ _
    rfl
  | w, a :: A, B, c => by
    intro hndA hndB
    have hndA' : (A.map Prod.fst).Nodup := (List.nodup_cons.mp hndA).2
    have hheadA : a.1 ∉ A.map Prod.fst := (List.nodup_cons.mp hndA).1
    have hrows : ∀ (B' : List (Nat × Char)) (p : Nat × Nat),
        p ∈ jwGreedy w A B' →
        (decide ((p.1, c) ∈ a :: A) : Bool) = decide ((p.1, c) ∈ A) := by
      intro B' p hp
      have hpr : p.1 ∈ A.map Prod.fst := by
        have hmem : p.1 ∈ (jwGreedy w A B').map Prod.fst :=
          List.mem_map.mpr ⟨p, hp, rfl⟩
        exact (jwGreedy_rows_sublist w A B').mem hmem
      have hne : (p.1, c) ≠ a := by
        intro h
        apply hheadA
        rw [show a.1 = p.1 by rw [← h]]
        exact hpr
      simp [List.mem_cons, hne]
    cases hf : B.find? (fun b => b.2 == a.2 && jwInWindow w a.1 b.1) with
    | some b =>
      have hbB : b ∈ B := List.mem_of_find?_eq_some hf
      have hbpred := List.find?_some hf
      have hbchar : b.2 = a.2 := by
        have := (Bool.and_eq_true _ _).mp hbpred
        exact beq_iff_eq.mp this.1
      have hstep : jwGreedy w (a :: A) B
          = (a.1, b.1) :: jwGreedy w A (B.erase b) := by
        simp only [jwGreedy, hf]
      have htail : (jwGreedy w A (B.erase b)).filter
            (fun p => decide ((p.1, c) ∈ a :: A))
          = (jwGreedy w A (B.erase b)).filter (fun p => decide ((p.1, c) ∈ A)) :=
        List.filter_congr (hrows (B.erase b))
      by_cases hc : c = a.2
      · have hhead : (decide ((a.1, c) ∈ a :: A) : Bool) = true := by
          have h0 : (a.1, c) = a := Prod.ext rfl hc
          simp [h0]
        have hclsA : clsRows c (a :: A) = a.1 :: clsRows c A := by
          have h0 : (a.2 == c) = true := beq_iff_eq.mpr hc.symm
          simp [clsRows, List.filter_cons, h0]
        have hbc : b = (b.1, c) := by
          have h0 : b = (b.1, b.2) := rfl
          rw [h0, hbchar, hc]
        have hfind : (clsRows c B).find? (fun j => jwInWindow w a.1 j)
            = some b.1 := by
          have hfc := find?_class B c (fun j => jwInWindow w a.1 j)
          have hlhs : B.find? (fun x => x.2 == c && jwInWindow w a.1 x.1)
              = some b := by
            rw [show (fun x : Nat × Char => x.2 == c && jwInWindow w a.1 x.1)
                = (fun x : Nat × Char => x.2 == a.2 && jwInWindow w a.1 x.1) by
              rw [hc]]
            exact hf
          rw [hlhs] at hfc
          cases hfo : (clsRows c B).find? (fun j => jwInWindow w a.1 j) with
          | none =>
            rw [hfo] at hfc
            cases hfc
          | some j =>
            rw [hfo] at hfc
            have hjb : (j, c) = b := Option.some.inj hfc.symm
            rw [show b.1 = j by rw [← hjb]]
        have hclsErase : clsRows c (B.erase b) = (clsRows c B).erase b.1 := by
          rw [show B.erase b = B.erase (b.1, c) by rw [← hbc]]
          exact clsRows_erase_self B b.1 c hndB (by rw [← hbc]; exact hbB)
        have hgcls : gcls w (a.1 :: clsRows c A) (clsRows c B)
            = (a.1, b.1) :: gcls w (clsRows c A) ((clsRows c B).erase b.1) := by
          simp only [gcls, hfind]
        rw [hstep, List.filter_cons, if_pos hhead, htail,
          jwGreedy_decomp w A (B.erase b) c hndA' (nodupFst_erase B b hndB),
          hclsErase, hclsA, hgcls]
      · have hhead : ¬ ((decide ((a.1, c) ∈ a :: A) : Bool) = true) := by
          simp only [decide_eq_true_eq]
          intro h
          rcases List.mem_cons.mp h with h | h
          · exact hc (congrArg Prod.snd h)
          · exact hheadA (List.mem_map.mpr ⟨(a.1, c), h, rfl⟩)
        have hclsA : clsRows c (a :: A) = clsRows c A := by
          have h0 : (a.2 == c) = false := by
            simp only [beq_eq_false_iff_ne, ne_eq]
            intro h
            exact hc h.symm
          simp [clsRows, List.filter_cons, h0]
        have hclsErase : clsRows c (B.erase b) = clsRows c B := by
          apply clsRows_erase_other
          rw [hbchar]
          intro h
          exact hc h.symm
        rw [hstep, List.filter_cons, if_neg hhead, htail,
          jwGreedy_decomp w A (B.erase b) c hndA' (nodupFst_erase B b hndB),
          hclsErase, hclsA]
    | none =>
      have hstep : jwGreedy w (a :: A) B = jwGreedy w A B := by
        simp only [jwGreedy, hf]
      have htail : (jwGreedy w A B).filter (fun p => decide ((p.1, c) ∈ a :: A))
          = (jwGreedy w A B).filter (fun p => decide ((p.1, c) ∈ A)) :=
        List.filter_congr (hrows B)
      rw [hstep, htail, jwGreedy_decomp w A B c hndA' hndB]
      by_cases hc : c = a.2
      · have hclsA : clsRows c (a :: A) = a.1 :: clsRows c A := by
          have h0 : (a.2 == c) = true := beq_iff_eq.mpr hc.symm
          simp [clsRows, List.filter_cons, h0]
        have hfind : (clsRows c B).find? (fun j => jwInWindow w a.1 j)
            = none := by
          have hfc := find?_class B c (fun j => jwInWindow w a.1 j)
          have hlhs : B.find? (fun x => x.2 == c && jwInWindow w a.1 x.1)
              = none := by
            rw [show (fun x : Nat × Char => x.2 == c && jwInWindow w a.1 x.1)
                = (fun x : Nat × Char => x.2 == a.2 && jwInWindow w a.1 x.1) by
              rw [hc]]
            exact hf
          rw [hlhs] at hfc
          cases hfo : (clsRows c B).find? (fun j => jwInWindow w a.1 j) with
          | none => rfl
          | some j =>
            rw [hfo] at hfc
            cases hfc
        have hgcls : gcls w (a.1 :: clsRows c A) (clsRows c B)
            = gcls w (clsRows c A) (clsRows c B) := by
          simp only [gcls, hfind]
        rw [hclsA, hgcls]
      · have hclsA : clsRows c (a :: A) = clsRows c A := by
          have h0 : (a.2 == c) = false := by
            simp only [beq_eq_false_iff_ne, ne_eq]
            intro h
            exact hc h.symm
          simp [clsRows, List.filter_cons, h0]
        rw [hclsA]

/-- A position is a first component iff it heads some entry. -/
theorem mem_map_fst {β : Type} (l : List (Nat × β)) (i : Nat) :
    i ∈ l.map Prod.fst ↔ ∃ x, (i, x) ∈ l := by
  constructor
  · intro h
    rcases List.mem_map.mp h with ⟨e, he, hfst⟩
    refine ⟨e.2, ?_⟩
    rw [show (i, e.2) = e from Prod.ext hfst.symm rfl]
    exact he
  · intro h
    rcases h with ⟨x, hx⟩
    exact List.mem_map.mpr ⟨(i, x), hx, rfl⟩

/-- A position is a second component iff it closes some pair. -/
theorem mem_map_snd (l : List (Nat × Nat)) (j : Nat) :
    j ∈ l.map Prod.snd ↔ ∃ i, (i, j) ∈ l := by
  constructor
  · intro h
    rcases List.mem_map.mp h with ⟨e, he, hsnd⟩
    refine ⟨e.1, ?_⟩
    rw [show (e.1, j) = e from Prod.ext rfl hsnd.symm]
    exact he
  · intro h
    rcases h with ⟨i, hi⟩
    exact List.mem_map.mpr ⟨(i, j), hi, rfl⟩

/-- Membership in the class rows is membership of the classed entry. -/
theorem clsRows_mem (B : List (Nat × Char)) (c : Char) (j : Nat) :
    j ∈ clsRows c B ↔ (j, c) ∈ B := by
  unfold clsRows
  constructor
  · intro h
    rcases List.mem_map.mp h with ⟨e, he, hfst⟩
    rcases List.mem_filter.mp he with ⟨heB, hec⟩
    rw [show (j, c) = e from Prod.ext hfst.symm (beq_iff_eq.mp hec).symm]
    exact heB
  · intro h
    exact List.mem_map.mpr ⟨(j, c), List.mem_filter.mpr ⟨h, by simp⟩, rfl⟩

/-- Positions enumerated from `n` are at least `n`. -/
theorem enumPos_fst_ge : ∀ (s : List Char) (n i : Nat),
    i ∈ (enumPos n s).map Prod.fst → n ≤ i
  | [], _, _ => by
    intro h
    cases h
  | c :: cs, n, i => by
    intro h
    simp only [enumPos, List.map_cons] at h
    rcases List.mem_cons.mp h with h | h
    · omega
    · have := enumPos_fst_ge cs (n + 1) i h
      omega

/-- Enumerated positions are strictly increasing. -/
theorem enumPos_fst_sorted : ∀ (s : List Char) (n : Nat),
    ((enumPos n s).map Prod.fst).Sorted (· < ·)
  | [], _ => by simp [enumPos]
  | c :: cs, n => by
    simp only [enumPos, List.map_cons]
    refine List.sorted_cons.mpr ⟨?_, enumPos_fst_sorted cs (n + 1)⟩
    intro b hb
    have := enumPos_fst_ge cs (n + 1) b hb
    omega

/-- Enumerated positions are pairwise distinct. -/
theorem enumPos_fst_nodup (s : List Char) (n : Nat) :
    ((enumPos n s).map Prod.fst).Nodup :=
  (enumPos_fst_sorted s n).imp Nat.ne_of_lt

/-- The class rows are a sublist of all positions. -/
theorem clsRows_sublist (c : Char) (l : List (Nat × Char)) :
    List.Sublist (clsRows c l) (l.map Prod.fst) :=
  (l.filter_sublist).map Prod.fst

/-- Which pairs the greedy match produces, class by class. -/
theorem jwGreedy_mem_class (w : Nat) (A B : List (Nat × Char)) (i j : Nat)
    (hndA : (A.map Prod.fst).Nodup) (hndB : (B.map Prod.fst).Nodup) :
    (i, j) ∈ jwGreedy w A B ↔
      ∃ c, (i, c) ∈ A ∧ (i, j) ∈ gcls w (clsRows c A) (clsRows c B) := by
  constructor
  · intro hp
    have hi : i ∈ A.map Prod.fst :=
      (jwGreedy_rows_sublist w A B).mem (List.mem_map.mpr ⟨(i, j), hp, rfl⟩)
    rcases (mem_map_fst A i).mp hi with ⟨c, hc⟩
    refine ⟨c, hc, ?_⟩
    rw [← jwGreedy_decomp w A B c hndA hndB]
    refine List.mem_filter.mpr ⟨hp, ?_⟩
    simp only [decide_eq_true_eq]
    exact hc
  · intro h
    rcases h with ⟨c, hcA, hg⟩
    rw [← jwGreedy_decomp w A B c hndA hndB] at hg
    exact (List.mem_filter.mp hg).1

/-- One direction of pair-set symmetry: a matched pair of `(s1, s2)`
transposes into a matched pair of `(s2, s1)`. -/
theorem jwMatchPairs_swap_of_mem (w : Nat) (s1 s2 : List Char) (i j : Nat)
    (h : (i, j) ∈ jwMatchPairs w s1 s2) : (j, i) ∈ jwMatchPairs w s2 s1 := by
  have hndA := enumPos_fst_nodup s1 0
  have hndB := enumPos_fst_nodup s2 0
  rcases (jwGreedy_mem_class w (enumPos 0 s1) (enumPos 0 s2) i j hndA hndB).mp
    h with ⟨c, hcA, hg⟩
  have hsA : (clsRows c (enumPos 0 s1)).Sorted (· < ·) :=
    (enumPos_fst_sorted s1 0).sublist (clsRows_sublist c (enumPos 0 s1))
  have hsB : (clsRows c (enumPos 0 s2)).Sorted (· < ·) :=
    (enumPos_fst_sorted s2 0).sublist (clsRows_sublist c (enumPos 0 s2))
  have hsym := gcls_symm
    ((clsRows c (enumPos 0 s1)).length + (clsRows c (enumPos 0 s2)).length) w
    (clsRows c (enumPos 0 s1)) (clsRows c (enumPos 0 s2)) le_rfl hsA hsB
  rw [hsym] at hg
  rcases List.mem_map.mp hg with ⟨q, hq, hswap⟩
  have hq' : q = (j, i) := by
    have h1 : q.2 = i := congrArg Prod.fst hswap
    have h2 : q.1 = j := congrArg Prod.snd hswap
    exact Prod.ext h2 h1
  rw [hq'] at hq
  have hjB : (j, c) ∈ enumPos 0 s2 :=
    (clsRows_mem (enumPos 0 s2) c j).mp
      (gcls_rows_mem w (clsRows c (enumPos 0 s2)) (clsRows c (enumPos 0 s1))
        (j, i) hq)
  exact (jwGreedy_mem_class w (enumPos 0 s2) (enumPos 0 s1) j i hndB hndA).mpr
    ⟨c, hjB, hq⟩

/-- Pair-set symmetry of the match phase. -/
theorem jwMatchPairs_mem_symm (w : Nat) (s1 s2 : List Char) (i j : Nat) :
    (i, j) ∈ jwMatchPairs w s1 s2 ↔ (j, i) ∈ jwMatchPairs w s2 s1 :=
  ⟨jwMatchPairs_swap_of_mem w s1 s2 i j, jwMatchPairs_swap_of_mem w s2 s1 j i⟩

/-- The matched pairs are pairwise distinct. -/
theorem jwGreedy_pairs_nodup (w : Nat) (A B : List (Nat × Char))
    (h : (A.map Prod.fst).Nodup) : (jwGreedy w A B).Nodup :=
  List.Nodup.of_map Prod.fst (h.sublist (jwGreedy_rows_sublist w A B))

/-- The matched columns are pairwise distinct. -/
theorem jwGreedy_cols_nodup : ∀ (w : Nat) (A B : List (Nat × Char)),
    (B.map Prod.fst).Nodup → ((jwGreedy w A B).map Prod.snd).Nodup
  | _, [], _ => by
    intro _
    simp [jwGreedy]
  | w, a :: A, B => by
    intro hnd
    cases hf : B.find? (fun b => b.2 == a.2 && jwInWindow w a.1 b.1) with
    | some b =>
      have hstep : jwGreedy w (a :: A) B
          = (a.1, b.1) :: jwGreedy w A (B.erase b) := by
        simp only [jwGreedy, hf]
      rw [hstep, List.map_cons]
      refine List.nodup_cons.mpr
        ⟨?_, jwGreedy_cols_nodup w A (B.erase b) (nodupFst_erase B b hnd)⟩
      intro hmem
      rcases List.mem_map.mp hmem with ⟨p, hp, hsnd⟩
      have hsnd' : p.2 = b.1 := hsnd
      have h1 : b.1 ∈ (B.erase b).map Prod.fst := by
        rw [← hsnd']
        exact jwGreedy_cols_mem w A (B.erase b) p hp
      rcases (mem_map_fst (B.erase b) b.1).mp h1 with ⟨x, hx⟩
      have hxB : (b.1, x) ∈ B := List.mem_of_mem_erase hx
      have hxb : (b.1, x) = b :=
        List.inj_on_of_nodup_map hnd hxB (List.mem_of_find?_eq_some hf) rfl
      rw [hxb] at hx
      exact (((List.Nodup.of_map Prod.fst hnd).mem_erase_iff).mp hx).1 rfl
    | none =>
      have hstep : jwGreedy w (a :: A) B = jwGreedy w A B := by
        simp only [jwGreedy, hf]
      rw [hstep]
      exact jwGreedy_cols_nodup w A B hnd

/-- Symmetry of the match count. -/
theorem jwMatchPairs_length_symm (w : Nat) (s1 s2 : List Char) :
    (jwMatchPairs w s1 s2).length = (jwMatchPairs w s2 s1).length := by
  have h1 : (jwMatchPairs w s1 s2).Nodup :=
    jwGreedy_pairs_nodup w (enumPos 0 s1) (enumPos 0 s2) (enumPos_fst_nodup s1 0)
  have h2 : (jwMatchPairs w s2 s1).Nodup :=
    jwGreedy_pairs_nodup w (enumPos 0 s2) (enumPos 0 s1) (enumPos_fst_nodup s2 0)
  have h2' : ((jwMatchPairs w s2 s1).map Prod.swap).Nodup :=
    h2.map Prod.swap_injective
  have hmem : ∀ p : Nat × Nat,
      p ∈ jwMatchPairs w s1 s2 ↔ p ∈ (jwMatchPairs w s2 s1).map Prod.swap := by
    intro p
    rw [show p = (p.1, p.2) from rfl, jwMatchPairs_mem_symm w s1 s2 p.1 p.2]
    constructor
    · intro h
      exact List.mem_map.mpr ⟨(p.2, p.1), h, rfl⟩
    · intro h
      rcases List.mem_map.mp h with ⟨q, hq, hsw⟩
      have hq' : q = (p.2, p.1) := by
        apply Prod.swap_injective
        rw [hsw]
        rfl
      rw [← hq']
      exact hq
  have hfin : (jwMatchPairs w s1 s2).toFinset
      = ((jwMatchPairs w s2 s1).map Prod.swap).toFinset := by
    apply Finset.ext
    intro p
    simp only [List.mem_toFinset]
    exact hmem p
  have hperm := List.perm_of_nodup_nodup_toFinset_eq h1 h2' hfin
  rw [hperm.length_eq, List.length_map]

/-- Two sorted duplicate-free lists with the same members coincide. -/
theorem sorted_nodup_ext {l1 l2 : List Nat} (hs1 : l1.Sorted (· ≤ ·))
    (hs2 : l2.Sorted (· ≤ ·)) (hn1 : l1.Nodup) (hn2 : l2.Nodup)
    (hmem : ∀ x, x ∈ l1 ↔ x ∈ l2) : l1 = l2 := by
  have hfin : l1.toFinset = l2.toFinset := by
    apply Finset.ext
    intro x
    simp only [List.mem_toFinset]
    exact hmem x
  exact List.eq_of_perm_of_sorted
    (List.perm_of_nodup_nodup_toFinset_eq hn1 hn2 hfin) hs1 hs2

/-- The matched rows of the swapped call are the sorted matched columns of
the original call. -/
theorem jwMatchPairs_rows_symm (w : Nat) (s1 s2 : List Char) :
    (jwMatchPairs w s2 s1).map Prod.fst
      = ((jwMatchPairs w s1 s2).map Prod.snd).insertionSort (· ≤ ·) := by
  have hLs : ((jwMatchPairs w s2 s1).map Prod.fst).Sorted (· < ·) :=
    (enumPos_fst_sorted s2 0).sublist
      (jwGreedy_rows_sublist w (enumPos 0 s2) (enumPos 0 s1))
  have hLsorted : ((jwMatchPairs w s2 s1).map Prod.fst).Sorted (· ≤ ·) :=
    hLs.imp Nat.le_of_lt
  have hLnd : ((jwMatchPairs w s2 s1).map Prod.fst).Nodup :=
    hLs.imp Nat.ne_of_lt
  have hRperm : List.Perm
      (((jwMatchPairs w s1 s2).map Prod.snd).insertionSort (· ≤ ·))
      ((jwMatchPairs w s1 s2).map Prod.snd) :=
    List.perm_insertionSort _ _
  have hcolsnd : ((jwMatchPairs w s1 s2).map Prod.snd).Nodup :=
    jwGreedy_cols_nodup w (enumPos 0 s1) (enumPos 0 s2) (enumPos_fst_nodup s2 0)
  have hRnd := hRperm.nodup_iff.mpr hcolsnd
  have hRsorted : (((jwMatchPairs w s1 s2).map Prod.snd).insertionSort
      (· ≤ ·)).Sorted (· ≤ ·) :=
    List.sorted_insertionSort _ _
  apply sorted_nodup_ext hLsorted hRsorted hLnd hRnd
  intro x
  rw [mem_map_fst, hRperm.mem_iff, mem_map_snd]
  constructor
  · intro h
    rcases h with ⟨i, hi⟩
    exact ⟨i, (jwMatchPairs_mem_symm w s2 s1 x i).mp hi⟩
  · intro h
    rcases h with ⟨i, hi⟩
    exact ⟨i, (jwMatchPairs_mem_symm w s2 s1 x i).mpr hi⟩

/-- Counting positional differences is commutative. -/
theorem mismatches_comm : ∀ (x y : List Char), mismatches x y = mismatches y x
  | [], [] => rfl
  | [], _ :: _ => rfl
  | _ :: _, [] => rfl
  | a :: xs, b :: ys => by
    simp only [mismatches]
    rw [mismatches_comm xs ys]
    congr 1
    by_cases h : a = b
    · rw [if_pos h, if_pos h.symm]
    · rw [if_neg h, if_neg (fun hh => h hh.symm)]

/-- Transposition counting is symmetric on the transposed match pairs. -/
theorem jwTranspositions_symm (w : Nat) (s1 s2 : List Char) :
    jwTranspositions s2 s1 (jwMatchPairs w s2 s1)
      = jwTranspositions s1 s2 (jwMatchPairs w s1 s2) := by
  have h21 := jwMatchPairs_rows_symm w s1 s2
  have h12 := jwMatchPairs_rows_symm w s2 s1
  show mismatches
      (((jwMatchPairs w s2 s1).map Prod.fst).map (fun i => s2.getD i ' '))
      ((((jwMatchPairs w s2 s1).map Prod.snd).insertionSort (· ≤ ·)).map
        (fun j => s1.getD j ' '))
    = mismatches
      (((jwMatchPairs w s1 s2).map Prod.fst).map (fun i => s1.getD i ' '))
      ((((jwMatchPairs w s1 s2).map Prod.snd).insertionSort (· ≤ ·)).map
        (fun j => s2.getD j ' '))
  rw [h21, ← h12]
  exact mismatches_comm _ _

/-- The common prefix length is symmetric. -/
theorem getCommonPrefixLength_comm : ∀ (s t : List Char),
    getCommonPrefixLength s t = getCommonPrefixLength t s
  | [], [] => rfl
  | [], _ :: _ => rfl
  | _ :: _, [] => rfl
  | a :: s, b :: t => by
    simp only [getCommonPrefixLength]
    by_cases h : a = b
    · rw [if_pos h, if_pos h.symm, getCommonPrefixLength_comm s t]
    · rw [if_neg h, if_neg (fun hh => h hh.symm)]

/-- The arithmetic tail is symmetric in the two lengths. -/
theorem jaroWinklerOf_comm (l1 l2 m t p : Nat) :
    jaroWinklerOf l1 l2 m t p = jaroWinklerOf l2 l1 m t p := by
  unfold jaroWinklerOf
  ring

/-- The full similarity is symmetric: every branch of the guard chain and
every quantity fed into the arithmetic tail is symmetric. -/
theorem calculateJaroWinkler_symm (s1 s2 : List Char) :
    calculateJaroWinkler s1 s2 = calculateJaroWinkler s2 s1 := by
  by_cases h1 : s1 = s2
  · rw [h1]
  · have h1' : ¬ s2 = s1 := fun h => h1 h.symm
    simp only [calculateJaroWinkler]
    rw [if_neg h1, if_neg h1']
    by_cases hz1 : s1.length = 0
    · by_cases hz2 : s2.length = 0
      · exfalso
        apply h1
        rw [List.length_eq_zero.mp hz1, List.length_eq_zero.mp hz2]
      · have hc : (decide (s1.length = 0) || decide (s2.length = 0)) = true := by
          simp [hz1]
        have hc' : (decide (s2.length = 0) || decide (s1.length = 0)) = true := by
          simp [hz1]
        rw [if_pos hc, if_pos hc']
    · by_cases hz2 : s2.length = 0
      · have hc : (decide (s1.length = 0) || decide (s2.length = 0)) = true := by
          simp [hz2]
        have hc' : (decide (s2.length = 0) || decide (s1.length = 0)) = true := by
          simp [hz2]
        rw [if_pos hc, if_pos hc']
      · have hc : ¬ ((decide (s1.length = 0) || decide (s2.length = 0)) = true) := by
          simp [hz1, hz2]
        have hc' : ¬ ((decide (s2.length = 0) || decide (s1.length = 0)) = true) := by
          simp [hz1, hz2]
        rw [if_neg hc, if_neg hc', Nat.max_comm s2.length s1.length]
        by_cases hw : max s1.length s2.length / 2 < 1
        · rw [if_pos hw, if_pos hw]
        · rw [if_neg hw, if_neg hw,
            show (jwMatchPairs (max s1.length s2.length / 2 - 1) s2 s1).length
              = (jwMatchPairs (max s1.length s2.length / 2 - 1) s1 s2).length from
              (jwMatchPairs_length_symm (max s1.length s2.length / 2 - 1)
                s1 s2).symm]
          by_cases hm : (jwMatchPairs (max s1.length s2.length / 2 - 1)
              s1 s2).length = 0
          · rw [if_pos hm, if_pos hm]
          · rw [if_neg hm, if_neg hm,
              jwTranspositions_symm (max s1.length s2.length / 2 - 1) s1 s2,
              getCommonPrefixLength_comm s2 s1]
            exact jaroWinklerOf_comm s1.length s2.length
              (jwMatchPairs (max s1.length s2.length / 2 - 1) s1 s2).length
              (jwTranspositions s1 s2
                (jwMatchPairs (max s1.length s2.length / 2 - 1) s1 s2))
              (min 4 (getCommonPrefixLength s1 s2))

/-- C5: the Jaro-Winkler similarity used for fuzzy matching satisfies the
three spec properties: it is `1` on every pair of equal strings, `0` between
the empty string and any nonempty string, and symmetric in its two
arguments. -/
theorem C5_jaro_winkler_properties :
    (∀ s : List Char, calculateJaroWinkler s s = 1) ∧
    (∀ s : List Char, s ≠ [] → calculateJaroWinkler [] s = 0) ∧
    (∀ s1 s2 : List Char,
      calculateJaroWinkler s1 s2 = calculateJaroWinkler s2 s1) := by
  refine ⟨fun s => ?_, fun s hs => ?_, fun s1 s2 => calculateJaroWinkler_symm s1 s2⟩
  · unfold calculateJaroWinkler
    rw [if_pos rfl]
  · unfold calculateJaroWinkler
    rw [if_neg (fun h => hs h.symm)]
    have hc : (decide (List.length ([] : List Char) = 0)
        || decide (s.length = 0)) = true := by
      simp
    rw [if_pos hc]

/-- Witness: the C5 properties evaluated at concrete strings. -/
theorem C5_jaro_winkler_properties_witness :
    calculateJaroWinkler "q".toList "q".toList = 1 ∧
    "x".toList ≠ ([] : List Char) ∧
    calculateJaroWinkler [] "x".toList = 0 :=
  ⟨C5_jaro_winkler_properties.1 "q".toList, by decide,
    C5_jaro_winkler_properties.2.1 "x".toList (by decide)⟩

end MB
